import Mathlib

/-!
Verification of the attachment-reference codec, upload naming and storage keys,
PDF content cleaning, session validation and storage cleanup of the
subflow-task-manager repository, as a shallow embedding over `List Char`.
Content strings are modelled as `List Char`; every function mirrors one
JavaScript/TypeScript function of the source (file and line references are
given at each definition).
-/

namespace Subflow

/-! ### Generic list utilities -/

/-- Strip a literal from the front of a string: `some` of the remainder when
the literal is a prefix, `none` otherwise. -/
def stripPre (pre s : List Char) : Option (List Char) :=
  if pre.isPrefixOf s then some (s.drop pre.length) else none

/-- Substring test, mirroring the JavaScript `String.includes` method. -/
def containsSub (pat : List Char) : List Char → Bool
  | [] => pat.isEmpty
  | c :: t => pat.isPrefixOf (c :: t) || containsSub pat t

/-- Split a string at the first occurrence of a literal: `some (before, after)`
when the literal occurs (lazy, leftmost), `none` otherwise.  This is the
semantics of a lazy `.*?` followed by the literal in a JavaScript regex. -/
def splitAtSub (pat : List Char) : List Char → Option (List Char × List Char)
  | [] => if pat.isEmpty then some ([], []) else none
  | c :: t =>
    if pat.isPrefixOf (c :: t) then some ([], (c :: t).drop pat.length)
    else match splitAtSub pat t with
      | some (a, b) => some (c :: a, b)
      | none => none

/-- Order-preserving deduplication keeping the first occurrence of each
element, mirroring the JavaScript idiom of spreading a string `Set`
(insertion order) back into an array. -/
def dedupFirstAux (seen : List (List Char)) : List (List Char) → List (List Char)
  | [] => []
  | x :: xs => if x ∈ seen then dedupFirstAux seen xs else x :: dedupFirstAux (x :: seen) xs

def dedupFirst (l : List (List Char)) : List (List Char) := dedupFirstAux [] l

/-! ### Character classes of the JavaScript regexes -/

/-- JavaScript regex whitespace class `\s`. -/
def jsSpace (c : Char) : Bool :=
  c = ' ' || c = '\t' || c = '\n' || c.val = 11 || c.val = 12 || c = '\r' ||
  c.val = 0xa0 || c.val = 0x1680 || (0x2000 ≤ c.val && c.val ≤ 0x200a) ||
  c.val = 0x2028 || c.val = 0x2029 || c.val = 0x202f || c.val = 0x205f ||
  c.val = 0x3000 || c.val = 0xfeff

/-- The class `[^\s]` of the sentinel regex. -/
def nsChar (c : Char) : Bool := !jsSpace c

/-- The class `[^\s\)]` of the bare-url regex. -/
def urlChar (c : Char) : Bool := !jsSpace c && c ≠ ')'

/-- JavaScript line terminators, not matched by `.` without the `s` flag. -/
def isLineTerm (c : Char) : Bool :=
  c = '\n' || c = '\r' || c.val = 0x2028 || c.val = 0x2029

/-! ### Literals -/

def httpsL : List Char := "https://".toList

def sentinelPre : List Char := "<!-- attachment: ".toList

def sentinelClose : List Char := " -->".toList

def segL : List Char := "/subtask-attachments/".toList

/-! ### The generic scanner

All four regex passes of the source (`commentRegex.exec` loop, the global
`content.match`, and the two global `String.replace` calls) share one shape:
scan left to right; at each position try a match; on success emit something
and resume after the match, on failure emit the unmatched character (or
nothing, for extraction) and advance one position.  `scanGo` implements that
shape with a skip counter so the recursion is structural in the string. -/

def scanGo (f : List Char → Option (List β × List Char)) (miss : Char → List β) :
    Nat → List Char → List β
  | _, [] => []
  | n + 1, _ :: t => scanGo f miss n t
  | 0, c :: t =>
    match f (c :: t) with
    | some (m, r) => m ++ scanGo f miss (t.length - r.length) t
    | none => miss c ++ scanGo f miss 0 t

/-! ### The attachment codec, from `src/services/fileUploadService.ts` -/

/-- One attempted match of `/<!-- attachment: (https:\/\/[^\s]+) -->/` at the
head of the string.  The greedy `[^\s]+` takes the maximal non-whitespace run;
since ` -->` starts with a space, backtracking inside the run can never
succeed earlier, so the run must be followed literally by ` -->`. -/
def tryComment (s : List Char) : Option (List (List Char) × List Char) :=
  match stripPre sentinelPre s with
  | none => none
  | some s1 =>
    match stripPre httpsL s1 with
    | none => none
    | some s2 =>
      if (s2.takeWhile nsChar).isEmpty then none
      else
        match stripPre sentinelClose (s2.drop (s2.takeWhile nsChar).length) with
        | none => none
        | some r => some ([httpsL ++ s2.takeWhile nsChar], r)

/-- Does `run` decompose as `a ++ segL ++ b` with `a` and `b` nonempty?  This
is exactly when `https://` followed by `run` matches
`https:\/\/[^\s\)]+\/subtask-attachments\/[^\s\)]+` (both `[^\s\)]+` need at
least one character; the greedy parts always extend to the whole run). -/
def properAt (t : List Char) : Bool := segL.isPrefixOf t && decide (segL.length < t.length)

def hasProperSeg : List Char → Bool
  | [] => false
  | _ :: t => properAt t || hasProperSeg t

/-- One attempted match of `/https:\/\/[^\s\)]+\/subtask-attachments\/[^\s\)]+/`
at the head of the string.  The matched text is always `https://` plus the
maximal `[^\s\)]` run, provided that run contains `/subtask-attachments/`
with at least one run character on each side. -/
def tryUrl (s : List Char) : Option (List (List Char) × List Char) :=
  match stripPre httpsL s with
  | none => none
  | some s1 =>
    if hasProperSeg (s1.takeWhile urlChar) then
      some ([httpsL ++ s1.takeWhile urlChar], s1.drop (s1.takeWhile urlChar).length)
    else none

/-- `extractFileUrls`, comment pass: the `while commentRegex.exec` loop
(fileUploadService.ts lines 84-87). -/
def extractComments (s : List Char) : List (List Char) := scanGo tryComment (fun _ => []) 0 s

/-- `extractFileUrls`, bare-url pass: `content.match(fileUrlRegex)`
(fileUploadService.ts line 90). -/
def extractMd (s : List Char) : List (List Char) := scanGo tryUrl (fun _ => []) 0 s

/-- `extractFileUrls` (fileUploadService.ts lines 77-94): comment sentinels
first, then bare attachment urls, deduplicated via a `Set`. -/
def extractFileUrls (s : List Char) : List (List Char) :=
  dedupFirst (extractComments s ++ extractMd s)

/-- `isSubtaskAttachment` (fileUploadService.ts lines 97-99). -/
def isSubtaskAttachment (url : List Char) : Bool := containsSub segL url

/-- The `UploadedFile` interface of fileUploadService.ts. -/
structure UploadedFile where
  url : List Char
  name : List Char
  size : Nat
  type : List Char

/-- One markdown file link written at save time:
`` `![${file.name}](${file.url})` `` (EnhancedSubtaskItem.tsx line 101,
SubtaskForm line 23). -/
def fileLink (f : UploadedFile) : List Char :=
  '!' :: '[' :: (f.name ++ ']' :: '(' :: (f.url ++ [')']))

/-- `attachedFiles.map(...).join('\n')`. -/
def fileLinks : List UploadedFile → List Char
  | [] => []
  | [f] => fileLink f
  | f :: g :: rest => fileLink f ++ '\n' :: fileLinks (g :: rest)

/-- The save-time content transformation of `handleSave`
(EnhancedSubtaskItem.tsx lines 95-112) and `handleSubmit`
(SubtaskForm lines 17-34): append the markdown links of the newly attached
files, after a blank line when the edited content is nonempty. -/
def contentWithFiles (content : List Char) (files : List UploadedFile) : List Char :=
  if files.isEmpty then content
  else if content.isEmpty then fileLinks files
  else content ++ '\n' :: '\n' :: fileLinks files

/-! ### PDF export content cleaning, from `src/utils/pdfExport.ts`

`exportTaskToPdf` cleans the task description (lines 83-85) and each subtask
description (lines 120-122) with the same two chained replaces:
`.replace(/!\[.*?\]\(.*?\)/g, '[image]').replace(/<!--.*?-->/gs, '')`. -/

def imgOpen : List Char := "![".toList

def brClose : List Char := "](".toList

def comOpen : List Char := "<!--".toList

def comClose : List Char := "-->".toList

def imageTok : List Char := "[image]".toList

/-- One attempted match of `!\[.*?\]\(.*?\)` at the head of the string.  Both
lazy parts stop at the first occurrence of their closer and, without the `s`
flag, cannot cross a line terminator; if the first candidate fails because of
a line terminator, every longer candidate fails for the same terminator, so
taking the first split is faithful. -/
def tryImage (s : List Char) : Option (List (List Char) × List Char) :=
  match stripPre imgOpen s with
  | none => none
  | some s1 =>
    match splitAtSub brClose s1 with
    | none => none
    | some (a, s2) =>
      if a.any isLineTerm then none
      else
        match splitAtSub [')'] s2 with
        | none => none
        | some (b, r) => if b.any isLineTerm then none else some ([], r)

/-- One attempted match of `<!--.*?-->` (with the `s` flag) at the head. -/
def tryHtmlComment (s : List Char) : Option (List (List Char) × List Char) :=
  match stripPre comOpen s with
  | none => none
  | some s1 =>
    match splitAtSub comClose s1 with
    | none => none
    | some (_, r) => some ([], r)

/-- `.replace(/!\[.*?\]\(.*?\)/g, '[image]')`. -/
def replaceImages (s : List Char) : List Char :=
  scanGo (fun t => (tryImage t).map (fun p => ([imageTok], p.2))) (fun c => [[c]]) 0 s |>.flatten

/-- `.replace(/<!--.*?-->/gs, '')`. -/
def stripComments (s : List Char) : List Char :=
  scanGo tryHtmlComment (fun c => [[c]]) 0 s |>.flatten

/-- The two chained replaces cleaning the task description in
`exportTaskToPdf` (lines 83-85).  The subtask-description sites chain a
final `.trim()` on top of this — see `cleanSubtaskContent`. -/
def cleanContent (s : List Char) : List Char := stripComments (replaceImages s)

/-- The trim method of JavaScript strings: strip the WhiteSpace and
LineTerminator code points (the same set as the regex class `\s`) from both
ends. -/
def jsTrim (s : List Char) : List Char :=
  ((s.dropWhile jsSpace).reverse.dropWhile jsSpace).reverse

/-- The whole cleaning of one subtask description in `exportTaskToPdf`
(lines 120-123 and 149-152): the two replaces chained with `.trim()`. -/
def cleanSubtaskContent (s : List Char) : List Char := jsTrim (cleanContent s)

/-! ### Upload naming and storage keys, from `src/services/fileUploadService.ts` -/

/-- JavaScript `String.split` with a single-character separator. -/
def splitOnChar (sep : Char) : List Char → List (List Char)
  | [] => [[]]
  | a :: t =>
    if a = sep then [] :: splitOnChar sep t
    else
      match splitOnChar sep t with
      | [] => [[a]]
      | h :: r => (a :: h) :: r

/-- `arr.pop()` on the result of a split (a split is never empty). -/
def lastSplit (sep : Char) (s : List Char) : List Char :=
  ((splitOnChar sep s).getLast?).getD []

/-- `file.type.split('/')[1] || 'png'` (line 20): the mime subtype, with the
`png` default when it is missing or empty. -/
def extFromMime (mime : List Char) : List Char :=
  match (splitOnChar '/' mime).drop 1 with
  | [] => "png".toList
  | x :: _ => if x.isEmpty then "png".toList else x

/-- `new Date().toISOString().slice(0, 19).replace(/[:.]/g, '-')` (line 19),
as a function of the ISO string. -/
def tsOf (iso : List Char) : List Char :=
  (iso.take 19).map (fun c => if c = ':' || c = '.' then '-' else c)

/-- The generic-clipboard-name test of line 18:
`fileName === 'image.png' || fileName === 'blob' || !fileName ||
fileName.startsWith('image')`. -/
def suspectName (n : List Char) : Bool :=
  n = "image.png".toList || n = "blob".toList || n.isEmpty || "image".toList.isPrefixOf n

/-- `` `screenshot-${timestamp}.${extension}` `` (line 21). -/
def screenshotName (iso mime : List Char) : List Char :=
  "screenshot-".toList ++ tsOf iso ++ '.' :: extFromMime mime

/-- The display name returned by `uploadSubtaskAttachment` (lines 15-22). -/
def uploadFileName (orig mime iso : List Char) : List Char :=
  if suspectName orig then screenshotName iso mime else orig

/-- `` `${userId}/${fileId}.${fileExtension}` `` with
`fileExtension = fileName.split('.').pop()` (lines 24-25). -/
def uploadStoragePath (userId fileId orig mime iso : List Char) : List Char :=
  userId ++ '/' :: (fileId ++ '.' :: lastSplit '.' (uploadFileName orig mime iso))

/-- The key addressed by `deleteSubtaskAttachment` (lines 58-60):
`` `${userId}/${fileName}` `` where `fileName` is the last `/`-segment of the
url. -/
def deleteFilePath (userId url : List Char) : List Char :=
  userId ++ '/' :: lastSplit '/' url

/-- The first path segment of a storage key. -/
def firstSeg (path : List Char) : List Char := (splitOnChar '/' path).headD []

/-! ### Session validation, from `src/hooks/useSessionManager.ts` -/

/-- The observable state of `session?.access_token` for `validateSession`:
absent, present but failing `atob`/`JSON.parse`, or decoded to a claims
object with an optional numeric `exp`. -/
inductive TokenState where
  | missing
  | undecodable
  | payload (exp : Option Int)
deriving DecidableEq

/-- Outcome of `supabase.auth.getUser()`: a user with no error, or any of
error / missing user / thrown rejection (all observed identically by
`validateSession`). -/
inductive ProviderResult where
  | ok
  | fail
deriving DecidableEq

/-- JavaScript truthiness of `tokenPayload.exp` followed by the comparison
`tokenPayload.exp < currentTime` (line 35): an absent or zero claim is falsy
and skips the expiry fast path. -/
def expTruthyLt (exp : Option Int) (now : Int) : Bool :=
  match exp with
  | none => false
  | some e => e ≠ 0 && e < now

/-- `validateSession` (useSessionManager.ts lines 25-54).  Returns
(result, whether the auth provider was contacted, new retry counter); the
counter is reset to 0 on the success path (line 48).  All throwing paths are
caught and collapsed to `false` (lines 50-53), so the function is total. -/
def validateSession (tok : TokenState) (now : Int) (prov : ProviderResult) (retry : Nat) :
    Bool × Bool × Nat :=
  match tok with
  | .missing => (false, false, retry)
  | .undecodable => (false, false, retry)
  | .payload exp =>
    if expTruthyLt exp now then (false, false, retry)
    else
      match prov with
      | .fail => (false, true, retry)
      | .ok => (true, true, 0)

/-- Observable outcome of one `performSessionCheck`. -/
structure CheckResult where
  retry : Nat
  signedOut : Bool
  cleaned : Bool
  providerCalled : Bool
deriving DecidableEq

/-- `performSessionCheck` (useSessionManager.ts lines 130-148), the path
shared by the periodic loop and the visibility-change trigger. -/
def performSessionCheck (hasSession : Bool) (tok : TokenState) (now : Int)
    (prov : ProviderResult) (maxRetries retry : Nat) : CheckResult :=
  if !hasSession then ⟨retry, false, true, false⟩
  else
    match validateSession tok now prov retry with
    | (true, called, r1) => ⟨r1, false, false, called⟩
    | (false, called, r1) =>
      if maxRetries ≤ r1 + 1 then ⟨0, true, true, called⟩
      else ⟨r1 + 1, false, false, called⟩

/-- The environment of one check: session presence, token state, clock and
provider answer. -/
structure StepEnv where
  hasSession : Bool
  tok : TokenState
  now : Int
  prov : ProviderResult

/-- A run of consecutive session checks; returns the final retry counter and
the total number of forced sign-outs. -/
def runChecks (maxRetries : Nat) (retry : Nat) : List StepEnv → Nat × Nat
  | [] => (retry, 0)
  | e :: es =>
    let res := performSessionCheck e.hasSession e.tok e.now e.prov maxRetries retry
    let rest := runChecks maxRetries res.retry es
    (rest.1, (if res.signedOut then 1 else 0) + rest.2)

/-! ### Storage cleanup, from `cleanupExpiredSessions`
(useSessionManager.ts lines 57-127) -/

/-- The observable state of one cached value: the empty string (falsy, so
`if (item)` skips it), a non-empty string on which `JSON.parse` throws, or a
parsed value whose `expires_at` and `exp` lookups yield optional numbers. -/
inductive CacheVal where
  | empty
  | bad
  | parsed (ea : Option Int) (e : Option Int)
deriving DecidableEq

/-- JavaScript truthiness of an optional numeric field. -/
def truthyNum : Option Int → Option Int
  | some v => if v = 0 then none else some v
  | none => none

/-- `parsed.expires_at || parsed.exp` (lines 75-76). -/
def effExpiry (ea e : Option Int) : Option Int :=
  match truthyNum ea with
  | some v => some v
  | none => truthyNum e

/-- The localStorage key filter (lines 61-66). -/
def authKeyLocal (k : List Char) : Bool :=
  containsSub "supabase".toList k || containsSub "auth".toList k ||
  containsSub "session".toList k || containsSub "token".toList k

/-- The sessionStorage key filter (lines 96-100) — note: no `token` pattern. -/
def authKeySession (k : List Char) : Bool :=
  containsSub "supabase".toList k || containsSub "auth".toList k ||
  containsSub "session".toList k

/-- Whether one localStorage pass iteration removes the entry (lines 68-92):
expired parsed entries are removed; unparseable entries are removed only when
the key contains `supabase.auth.token`. -/
def localRemove (now : Int) (k : List Char) (v : CacheVal) : Bool :=
  authKeyLocal k &&
    match v with
    | .empty => false
    | .bad => containsSub "supabase.auth.token".toList k
    | .parsed ea e =>
      match effExpiry ea e with
      | some t => t < now
      | none => false

/-- Whether one sessionStorage pass iteration removes the entry
(lines 102-123): unparseable entries are removed unconditionally. -/
def sessionRemove (now : Int) (k : List Char) (v : CacheVal) : Bool :=
  authKeySession k &&
    match v with
    | .empty => false
    | .bad => true
    | .parsed ea e =>
      match effExpiry ea e with
      | some t => t < now
      | none => false

/-- The localStorage pass over a snapshot of the store, entry by entry; the
per-entry `try`/`catch` means an unparseable entry never interrupts the
loop, so the pass visits every entry. -/
def cleanupLocal (now : Int) : List (List Char × CacheVal) → List (List Char × CacheVal)
  | [] => []
  | (k, v) :: rest =>
    if localRemove now k v then cleanupLocal now rest else (k, v) :: cleanupLocal now rest

/-- The sessionStorage pass. -/
def cleanupSession (now : Int) : List (List Char × CacheVal) → List (List Char × CacheVal)
  | [] => []
  | (k, v) :: rest =>
    if sessionRemove now k v then cleanupSession now rest else (k, v) :: cleanupSession now rest

/-! ### Prefix and occurrence infrastructure -/

lemma isPrefixOf_eq_true : ∀ {p s : List Char}, p.isPrefixOf s = true ↔ p <+: s
  | [], _ => by simp [List.isPrefixOf]
  | _ :: _, [] => by simp [List.isPrefixOf]
  | a :: p, b :: s => by
    simp only [List.isPrefixOf, Bool.and_eq_true, beq_iff_eq, List.cons_prefix_cons]
    exact and_congr Iff.rfl isPrefixOf_eq_true

lemma pref_cases : ∀ {x u : List Char} (t : List Char), x <+: u ++ t → x <+: u ∨ u <+: x
  | [], _, _, _ => Or.inl List.nil_prefix
  | _ :: _, [], _, _ => Or.inr List.nil_prefix
  | a :: x, b :: u, t, h => by
    rw [List.cons_append, List.cons_prefix_cons] at h
    rcases pref_cases t h.2 with h2 | h2
    · exact Or.inl (by rw [List.cons_prefix_cons]; exact ⟨h.1, h2⟩)
    · exact Or.inr (by rw [List.cons_prefix_cons]; exact ⟨h.1.symm, h2⟩)

lemma append_pref {a b s : List Char} (ha : a <+: s) (hb : b <+: s.drop a.length) :
    a ++ b <+: s := by
  obtain ⟨u, hu⟩ := ha
  obtain ⟨w, hw⟩ := hb
  subst hu
  rw [List.drop_left] at hw
  exact ⟨w, by rw [List.append_assoc, hw]⟩

/-- No occurrence of the literal `lit` anywhere in `s`. -/
def NoPre (lit s : List Char) : Prop := ∀ i, ¬ lit <+: s.drop i

lemma containsSub_true_iff {pat : List Char} : ∀ {s : List Char},
    containsSub pat s = true ↔ ∃ i, pat <+: s.drop i := by
  intro s
  induction s with
  | nil =>
    simp only [containsSub, List.isEmpty_iff, List.drop_nil, List.prefix_nil]
    exact ⟨fun h => ⟨0, h⟩, fun ⟨_, h⟩ => h⟩
  | cons c t ih =>
    simp only [containsSub, Bool.or_eq_true, isPrefixOf_eq_true, ih]
    constructor
    · rintro (h | ⟨i, h⟩)
      · exact ⟨0, h⟩
      · exact ⟨i + 1, by simpa using h⟩
    · rintro ⟨i, h⟩
      cases i with
      | zero => exact Or.inl h
      | succ j => exact Or.inr ⟨j, by simpa using h⟩

lemma noPre_of_containsSub {pat s : List Char} (h : containsSub pat s = false) : NoPre pat s :=
  fun i hp => by
    have := containsSub_true_iff.mpr ⟨i, hp⟩
    rw [h] at this
    exact Bool.false_ne_true this

lemma noPre_of_mem {lit s : List Char} (ch : Char) (h1 : ch ∈ lit) (h2 : ∀ c ∈ s, c ≠ ch) :
    NoPre lit s := fun i hp =>
  h2 ch (List.drop_subset i s (hp.subset h1)) rfl

lemma noPre_extendL {b s : List Char} (a : List Char) (h : NoPre b s) : NoPre (a ++ b) s := by
  intro i hp
  obtain ⟨w, hw⟩ := hp
  refine h (i + a.length) ⟨w, ?_⟩
  rw [← List.drop_drop, ← hw, List.append_assoc, List.drop_left]

lemma noPreMid_head {lit x : List Char} (t : List Char) (h1 : NoPre lit x)
    (hb : ∀ ch, t.head? = some ch → ch ∉ lit.drop 1) :
    ∀ i < x.length, ¬ lit <+: (x ++ t).drop i := by
  intro i hi hp
  rw [List.drop_append_eq_append_drop, Nat.sub_eq_zero_of_le (Nat.le_of_lt hi),
    List.drop_zero] at hp
  rcases pref_cases t hp with hc | hc
  · exact h1 i hc
  · obtain ⟨w, hw⟩ := hc
    cases w with
    | nil => exact h1 i (by rw [← hw, List.append_nil])
    | cons r0 rs =>
      have hdrop : x.drop i ≠ [] := by
        intro hnil
        have := congrArg List.length hnil
        simp only [List.length_drop, List.length_nil] at this
        omega
      have ht : r0 :: rs <+: t := by
        rw [← hw] at hp
        exact (List.prefix_append_right_inj (x.drop i)).mp hp
      obtain ⟨t', ht'⟩ := ht
      have hhead : t.head? = some r0 := by rw [← ht']; rfl
      refine hb r0 hhead ?_
      rw [← hw, List.drop_append_eq_append_drop,
        Nat.sub_eq_zero_of_le (List.length_pos.mpr hdrop), List.drop_zero]
      exact List.mem_append_right _ (List.mem_cons_self r0 rs)

lemma noPreMid_last {lit x : List Char} (t : List Char) (h1 : NoPre lit x)
    (hb : ∀ ch, x.getLast? = some ch → ch ∉ lit) :
    ∀ i < x.length, ¬ lit <+: (x ++ t).drop i := by
  intro i hi hp
  rw [List.drop_append_eq_append_drop, Nat.sub_eq_zero_of_le (Nat.le_of_lt hi),
    List.drop_zero] at hp
  rcases pref_cases t hp with hc | hc
  · exact h1 i hc
  · have hdrop : x.drop i ≠ [] := by
      intro hnil
      have := congrArg List.length hnil
      simp only [List.length_drop, List.length_nil] at this
      omega
    have hlast : x.getLast? = (x.drop i).getLast? := by
      conv_lhs => rw [← List.take_append_drop i x]
      exact List.getLast?_append_of_ne_nil _ hdrop
    have hmem : (x.drop i).getLast hdrop ∈ lit :=
      hc.subset (List.getLast_mem hdrop)
    exact hb _ (by rw [hlast]; exact (List.getLast?_eq_getLast _ hdrop)) hmem

lemma noPre_append_head {lit x t : List Char} (h1 : NoPre lit x) (h2 : NoPre lit t)
    (hb : ∀ ch, t.head? = some ch → ch ∉ lit.drop 1) : NoPre lit (x ++ t) := by
  intro i hp
  rcases Nat.lt_or_ge i x.length with hi | hi
  · exact noPreMid_head t h1 hb i hi hp
  · rw [List.drop_append_eq_append_drop, List.drop_of_length_le hi, List.nil_append] at hp
    exact h2 _ hp

lemma noPre_append_last {lit x t : List Char} (h1 : NoPre lit x) (h2 : NoPre lit t)
    (hb : ∀ ch, x.getLast? = some ch → ch ∉ lit) : NoPre lit (x ++ t) := by
  intro i hp
  rcases Nat.lt_or_ge i x.length with hi | hi
  · exact noPreMid_last t h1 hb i hi hp
  · rw [List.drop_append_eq_append_drop, List.drop_of_length_le hi, List.nil_append] at hp
    exact h2 _ hp

/-! ### Generic scanner lemmas -/

section Scanner

variable {β : Type} {f : List Char → Option (List β × List Char)} {miss : Char → List β}

lemma scanGo_nil (n : Nat) : scanGo f miss n [] = [] := by cases n <;> rfl

lemma scanGo_skip : ∀ (x t : List Char), scanGo f miss x.length (x ++ t) = scanGo f miss 0 t
  | [], _ => by rw [List.nil_append]; rfl
  | a :: x, t => by
    rw [List.cons_append, List.length_cons]
    exact scanGo_skip x t

lemma scanGo_eq_some {s r : List Char} {m : List β} (hf : f s = some (m, r))
    (hk : ∃ k, 1 ≤ k ∧ k ≤ s.length ∧ r = s.drop k) :
    scanGo f miss 0 s = m ++ scanGo f miss 0 r := by
  obtain ⟨k, hk1, hk2, hkr⟩ := hk
  cases s with
  | nil => simp at hk2; omega
  | cons c t =>
    have heq : scanGo f miss 0 (c :: t) = m ++ scanGo f miss (t.length - r.length) t := by
      simp [scanGo, hf]
    rw [heq]
    congr 1
    simp only [List.length_cons] at hk2
    have hr : r = t.drop (k - 1) := by
      rw [hkr]
      cases k with
      | zero => omega
      | succ k0 => simp [List.drop_succ_cons]
    have hlen : r.length = t.length - (k - 1) := by rw [hr, List.length_drop]
    have harith : t.length - r.length = k - 1 := by rw [hlen]; omega
    have htk : t.take (k - 1) ++ t.drop (k - 1) = t := List.take_append_drop _ _
    have hklen : (t.take (k - 1)).length = k - 1 := by
      rw [List.length_take]
      exact Nat.min_eq_left (by omega)
    have hskip := @scanGo_skip _ f miss (t.take (k - 1)) (t.drop (k - 1))
    rw [htk, hklen] at hskip
    rw [harith, hskip, ← hr]

lemma scanGo_region : ∀ (x t : List Char),
    (∀ i < x.length, f ((x ++ t).drop i) = none) →
    scanGo f miss 0 (x ++ t) = (x.map miss).flatten ++ scanGo f miss 0 t
  | [], t, _ => by rw [List.nil_append]; rfl
  | a :: x, t, h => by
    have h0 : f (a :: (x ++ t)) = none := by
      have := h 0 (by simp)
      simpa using this
    have heq : scanGo f miss 0 (a :: (x ++ t)) = miss a ++ scanGo f miss 0 (x ++ t) := by
      simp [scanGo, h0]
    rw [List.cons_append, heq, scanGo_region x t (fun i hi => by
      have := h (i + 1) (by simp only [List.length_cons]; omega)
      simpa using this)]
    simp [List.append_assoc]

end Scanner

/-! ### Basic facts about the match attempts -/

lemma stripPre_some {p s r : List Char} (h : stripPre p s = some r) :
    p <+: s ∧ r = s.drop p.length := by
  unfold stripPre at h
  split at h
  · next hpre => exact ⟨isPrefixOf_eq_true.mp hpre, (Option.some.inj h).symm⟩
  · exact absurd h (by simp)

lemma stripPre_build (p t : List Char) : stripPre p (p ++ t) = some t := by
  unfold stripPre
  rw [if_pos (isPrefixOf_eq_true.mpr ⟨t, rfl⟩), List.drop_left]

lemma stripPre_of_not {p s : List Char} (h : ¬ p <+: s) : stripPre p s = none := by
  unfold stripPre
  rw [if_neg (fun hc => h (isPrefixOf_eq_true.mp hc))]

lemma takeWhile_all_append {p : Char → Bool} : ∀ {u : List Char} (t : List Char),
    (∀ c ∈ u, p c = true) → (u ++ t).takeWhile p = u ++ t.takeWhile p
  | [], _, _ => rfl
  | a :: u, t, h => by
    rw [List.cons_append, List.takeWhile_cons_of_pos (h a (List.mem_cons_self a u)),
      takeWhile_all_append t (fun c hc => h c (List.mem_cons_of_mem a hc)), List.cons_append]

lemma takeWhile_length_le {p : Char → Bool} : ∀ (l : List Char), (l.takeWhile p).length ≤ l.length
  | [] => Nat.le_refl _
  | a :: l => by
    by_cases h : p a
    · rw [List.takeWhile_cons_of_pos h, List.length_cons, List.length_cons]
      exact Nat.succ_le_succ (takeWhile_length_le l)
    · rw [List.takeWhile_cons_of_neg h]
      simp

/-- The combined mandatory literal of the sentinel regex. -/
def sentinelLit : List Char := sentinelPre ++ httpsL

lemma tryComment_parts {s r : List Char} {m : List (List Char)}
    (h : tryComment s = some (m, r)) :
    sentinelLit <+: s ∧ ∃ k, 1 ≤ k ∧ k ≤ s.length ∧ r = s.drop k := by
  unfold tryComment at h
  split at h
  · simp at h
  next s1 h1 =>
    split at h
    · simp at h
    next s2 h2 =>
      split at h
      · simp at h
      next hrun =>
        split at h
        · simp at h
        next r' h3 =>
          obtain ⟨hp1, hs1⟩ := stripPre_some h1
          obtain ⟨hp2, hs2⟩ := stripPre_some h2
          obtain ⟨hp3, hs3⟩ := stripPre_some h3
          have hmr : r = r' := by
            simp only [Option.some.injEq, Prod.mk.injEq] at h
            exact h.2.symm
          refine ⟨append_pref hp1 (by rw [← hs1]; exact hp2), ?_⟩
          refine ⟨sentinelPre.length + httpsL.length + (s2.takeWhile nsChar).length +
            sentinelClose.length, by simp [sentinelPre, httpsL, sentinelClose], ?_, ?_⟩
          · have e1 := hp1.length_le
            have e2 := hp2.length_le
            have e3 := hp3.length_le
            have l1 := congrArg List.length hs1
            have l2 := congrArg List.length hs2
            have lt := takeWhile_length_le (p := nsChar) s2
            simp only [List.length_drop] at l1 l2 e3 ⊢
            omega
          · rw [hmr, hs3, hs2, hs1, List.drop_drop, List.drop_drop, List.drop_drop]
            congr 1
            omega

lemma tryUrl_parts {s r : List Char} {m : List (List Char)}
    (h : tryUrl s = some (m, r)) :
    httpsL <+: s ∧ ∃ k, 1 ≤ k ∧ k ≤ s.length ∧ r = s.drop k := by
  unfold tryUrl at h
  split at h
  · simp at h
  next s1 h1 =>
    split at h
    · next hseg =>
      obtain ⟨hp1, hs1⟩ := stripPre_some h1
      have hmr : r = s1.drop (s1.takeWhile urlChar).length := by
        simp only [Option.some.injEq, Prod.mk.injEq] at h
        exact h.2.symm
      refine ⟨hp1, httpsL.length + (s1.takeWhile urlChar).length,
        by simp [httpsL]; omega, ?_, ?_⟩
      · have e1 := hp1.length_le
        have l1 := congrArg List.length hs1
        have lt := takeWhile_length_le (p := urlChar) s1
        simp only [List.length_drop] at l1 ⊢
        omega
      · rw [hmr, hs1, List.drop_drop]
    · simp at h

lemma splitAtSub_some {pat : List Char} : ∀ {s a b : List Char},
    splitAtSub pat s = some (a, b) →
    b = s.drop (a.length + pat.length) ∧ a.length + pat.length ≤ s.length := by
  intro s
  induction s with
  | nil =>
    intro a b h
    unfold splitAtSub at h
    by_cases hp : pat.isEmpty
    · rw [if_pos hp] at h
      simp only [Option.some.injEq, Prod.mk.injEq] at h
      rw [List.isEmpty_iff] at hp
      simp [← h.1, ← h.2, hp]
    · rw [if_neg hp] at h; simp at h
  | cons c t ih =>
    intro a b h
    unfold splitAtSub at h
    by_cases hp : pat.isPrefixOf (c :: t)
    · rw [if_pos hp] at h
      simp only [Option.some.injEq, Prod.mk.injEq] at h
      have := (isPrefixOf_eq_true.mp hp).length_le
      constructor
      · rw [← h.1, ← h.2]
        simp
      · rw [← h.1]
        simpa using this
    · rw [if_neg hp] at h
      cases h4 : splitAtSub pat t with
      | none => rw [h4] at h; simp at h
      | some p =>
        rw [h4] at h
        obtain ⟨a', b'⟩ := p
        obtain ⟨ih1, ih2⟩ := ih h4
        simp only [Option.some.injEq, Prod.mk.injEq] at h
        constructor
        · rw [← h.1, ← h.2, ih1]
          simp only [List.length_cons]
          rw [Nat.add_right_comm, List.drop_succ_cons]
        · rw [← h.1]
          simp only [List.length_cons, List.length_cons]
          omega

lemma tryImage_parts {s r : List Char} {m : List (List Char)}
    (h : tryImage s = some (m, r)) :
    imgOpen <+: s ∧ ∃ k, 1 ≤ k ∧ k ≤ s.length ∧ r = s.drop k := by
  unfold tryImage at h
  split at h
  · simp at h
  next s1 h1 =>
    split at h
    · simp at h
    next a s2 h2 =>
      split at h
      · simp at h
      next hla =>
        split at h
        · simp at h
        next b r' h3 =>
          split at h
          · simp at h
          next hlb =>
            simp only [Option.some.injEq, Prod.mk.injEq] at h
            obtain ⟨hp1, hs1⟩ := stripPre_some h1
            obtain ⟨hb2, hl2⟩ := splitAtSub_some h2
            obtain ⟨hb3, hl3⟩ := splitAtSub_some h3
            have e1 := hp1.length_le
            have l1 := congrArg List.length hs1
            have l2 := congrArg List.length hb2
            have c1 : imgOpen.length = 2 := rfl
            have c2 : brClose.length = 2 := rfl
            have c3 : ([')'] : List Char).length = 1 := rfl
            refine ⟨hp1, imgOpen.length + (a.length + brClose.length) +
              (b.length + 1), by simp [imgOpen, brClose]; omega, ?_, ?_⟩
            · simp only [List.length_drop] at l1 l2 hl3 ⊢
              omega
            · rw [← h.2, hb3, hb2, hs1, List.drop_drop, List.drop_drop]
              congr 1
              simp only [List.length_cons, List.length_nil]
              omega

lemma tryHtmlComment_parts {s r : List Char} {m : List (List Char)}
    (h : tryHtmlComment s = some (m, r)) :
    comOpen <+: s ∧ ∃ k, 1 ≤ k ∧ k ≤ s.length ∧ r = s.drop k := by
  unfold tryHtmlComment at h
  split at h
  · simp at h
  next s1 h1 =>
    split at h
    · simp at h
    next v r' h2 =>
      simp only [Option.some.injEq, Prod.mk.injEq] at h
      obtain ⟨hp1, hs1⟩ := stripPre_some h1
      obtain ⟨hb2, hl2⟩ := splitAtSub_some h2
      have e1 := hp1.length_le
      have l1 := congrArg List.length hs1
      have c1 : comOpen.length = 4 := rfl
      have c2 : comClose.length = 3 := rfl
      refine ⟨hp1, comOpen.length + (v.length + comClose.length),
        by simp [comOpen, comClose]; omega, ?_, ?_⟩
      · simp only [List.length_drop] at l1 hl2 ⊢
        omega
      · rw [← h.2, hb2, hs1, List.drop_drop]

/-! ### Pass-specific scanner facts -/

lemma flatten_map_nil {α γ : Type} (x : List α) :
    (x.map (fun _ => ([] : List γ))).flatten = [] := by
  induction x <;> simp_all

lemma flatten_map_box (x : List Char) :
    ((x.map (fun c => [[c]])).flatten).flatten = x := by
  induction x <;> simp_all

lemma extractComments_append {x t : List Char}
    (h : ∀ i < x.length, ¬ sentinelLit <+: (x ++ t).drop i) :
    extractComments (x ++ t) = extractComments t := by
  have hn : ∀ i < x.length, tryComment ((x ++ t).drop i) = none := by
    intro i hi
    cases hc : tryComment ((x ++ t).drop i) with
    | none => rfl
    | some v =>
      obtain ⟨m, r⟩ := v
      exact absurd (tryComment_parts hc).1 (h i hi)
  unfold extractComments
  rw [scanGo_region x t hn, flatten_map_nil, List.nil_append]

lemma extractComments_none {s : List Char} (h : NoPre sentinelLit s) : extractComments s = [] := by
  have he := extractComments_append (x := s) (t := [])
    (fun i _ => by rw [List.append_nil]; exact h i)
  rw [List.append_nil] at he
  exact he.trans rfl

lemma extractComments_step {s r u : List Char} (hc : tryComment s = some ([u], r)) :
    extractComments s = u :: extractComments r := by
  unfold extractComments
  rw [scanGo_eq_some hc (tryComment_parts hc).2]
  rfl

lemma extractMd_append {x t : List Char}
    (h : ∀ i < x.length, ¬ httpsL <+: (x ++ t).drop i) :
    extractMd (x ++ t) = extractMd t := by
  have hn : ∀ i < x.length, tryUrl ((x ++ t).drop i) = none := by
    intro i hi
    cases hc : tryUrl ((x ++ t).drop i) with
    | none => rfl
    | some v =>
      obtain ⟨m, r⟩ := v
      exact absurd (tryUrl_parts hc).1 (h i hi)
  unfold extractMd
  rw [scanGo_region x t hn, flatten_map_nil, List.nil_append]

lemma extractMd_none {s : List Char} (h : NoPre httpsL s) : extractMd s = [] := by
  have he := extractMd_append (x := s) (t := [])
    (fun i _ => by rw [List.append_nil]; exact h i)
  rw [List.append_nil] at he
  exact he.trans rfl

lemma extractMd_step {s r u : List Char} (hc : tryUrl s = some ([u], r)) :
    extractMd s = u :: extractMd r := by
  unfold extractMd
  rw [scanGo_eq_some hc (tryUrl_parts hc).2]
  rfl

lemma replaceImages_append {x t : List Char}
    (h : ∀ i < x.length, ¬ imgOpen <+: (x ++ t).drop i) :
    replaceImages (x ++ t) = x ++ replaceImages t := by
  have hn : ∀ i < x.length,
      (fun u => (tryImage u).map (fun p => ([imageTok], p.2))) ((x ++ t).drop i) = none := by
    intro i hi
    cases hc : tryImage ((x ++ t).drop i) with
    | none => simp [hc]
    | some v =>
      obtain ⟨m, r⟩ := v
      exact absurd (tryImage_parts hc).1 (h i hi)
  unfold replaceImages
  rw [scanGo_region x t hn, List.flatten_append, flatten_map_box]

lemma replaceImages_id {s : List Char} (h : NoPre imgOpen s) : replaceImages s = s := by
  have he := replaceImages_append (x := s) (t := [])
    (fun i _ => by rw [List.append_nil]; exact h i)
  rw [List.append_nil] at he
  have h0 : replaceImages ([] : List Char) = [] := rfl
  rw [he, h0, List.append_nil]

lemma replaceImages_step {s r : List Char} (hc : tryImage s = some ([], r)) :
    replaceImages s = imageTok ++ replaceImages r := by
  have hf : (fun u => (tryImage u).map (fun p => ([imageTok], p.2))) s =
      some ([imageTok], r) := by simp [hc]
  unfold replaceImages
  rw [scanGo_eq_some hf (tryImage_parts hc).2]
  simp

lemma stripComments_append {x t : List Char}
    (h : ∀ i < x.length, ¬ comOpen <+: (x ++ t).drop i) :
    stripComments (x ++ t) = x ++ stripComments t := by
  have hn : ∀ i < x.length, tryHtmlComment ((x ++ t).drop i) = none := by
    intro i hi
    cases hc : tryHtmlComment ((x ++ t).drop i) with
    | none => rfl
    | some v =>
      obtain ⟨m, r⟩ := v
      exact absurd (tryHtmlComment_parts hc).1 (h i hi)
  unfold stripComments
  rw [scanGo_region x t hn, List.flatten_append, flatten_map_box]

lemma stripComments_id {s : List Char} (h : NoPre comOpen s) : stripComments s = s := by
  have he := stripComments_append (x := s) (t := [])
    (fun i _ => by rw [List.append_nil]; exact h i)
  rw [List.append_nil] at he
  have h0 : stripComments ([] : List Char) = [] := rfl
  rw [he, h0, List.append_nil]

lemma stripComments_step {s r : List Char} (hc : tryHtmlComment s = some ([], r)) :
    stripComments s = stripComments r := by
  unfold stripComments
  rw [scanGo_eq_some hc (tryHtmlComment_parts hc).2]
  rfl

/-! ### Success computations for the match attempts -/

lemma tryComment_build {v t : List Char} (hv : v ≠ []) (hns : ∀ c ∈ v, nsChar c = true) :
    tryComment (sentinelPre ++ (httpsL ++ (v ++ (sentinelClose ++ t)))) =
      some ([httpsL ++ v], t) := by
  unfold tryComment
  simp only [stripPre_build]
  have hrun : (v ++ (sentinelClose ++ t)).takeWhile nsChar = v := by
    rw [takeWhile_all_append _ hns]
    have hcl : sentinelClose = ' ' :: "-->".toList := rfl
    rw [hcl, List.cons_append, List.takeWhile_cons_of_neg (by decide), List.append_nil]
  simp only [hrun]
  rw [if_neg (fun hc => hv (List.isEmpty_iff.mp hc)), List.drop_left]
  simp only [stripPre_build]

lemma tryUrl_build {u rest : List Char} (hu : ∀ c ∈ u, urlChar c = true)
    (hseg : hasProperSeg u = true) (hrest : rest.takeWhile urlChar = []) :
    tryUrl (httpsL ++ (u ++ rest)) = some ([httpsL ++ u], rest) := by
  unfold tryUrl
  simp only [stripPre_build]
  have hrun : (u ++ rest).takeWhile urlChar = u := by
    rw [takeWhile_all_append _ hu, hrest, List.append_nil]
  simp only [hrun, hseg, if_true, List.drop_left]

lemma splitAtSub_build {pat : List Char} (hpat : pat ≠ []) : ∀ {x : List Char} (t : List Char),
    (∀ i < x.length, ¬ pat <+: (x ++ (pat ++ t)).drop i) →
    splitAtSub pat (x ++ (pat ++ t)) = some (x, t)
  | [], t, _ => by
    rw [List.nil_append]
    cases hp : pat with
    | nil => exact absurd hp hpat
    | cons p0 pr =>
      rw [List.cons_append]
      unfold splitAtSub
      rw [if_pos (by rw [← List.cons_append, ← hp]; exact isPrefixOf_eq_true.mpr ⟨t, rfl⟩)]
      rw [← List.cons_append, ← hp, List.drop_left]
  | c :: x, t, h => by
    have h0 : ¬ pat.isPrefixOf (c :: (x ++ (pat ++ t))) = true := by
      intro hc
      exact h 0 (by simp) (by simpa using isPrefixOf_eq_true.mp hc)
    rw [List.cons_append]
    unfold splitAtSub
    rw [if_neg h0, splitAtSub_build hpat t (fun i hi => by
      have := h (i + 1) (by simp only [List.length_cons]; omega)
      simpa using this)]

lemma tryImage_build {a b t : List Char} (hna : ∀ c ∈ a, c ≠ ']')
    (hla : a.any isLineTerm = false) (hnb : ∀ c ∈ b, c ≠ ')')
    (hlb : b.any isLineTerm = false) :
    tryImage (imgOpen ++ (a ++ (brClose ++ (b ++ (')' :: t))))) = some ([], t) := by
  unfold tryImage
  simp only [stripPre_build]
  have hA : splitAtSub brClose (a ++ (brClose ++ (b ++ (')' :: t)))) =
      some (a, b ++ (')' :: t)) := by
    apply splitAtSub_build (by decide)
    exact noPreMid_head _ (noPre_of_mem ']' (by decide) hna)
      (fun ch hch => by
        have : ch = ']' := by
          have hh : (brClose ++ (b ++ (')' :: t))).head? = some ']' := rfl
          rw [hh] at hch
          exact (Option.some.inj hch).symm
        rw [this]
        decide)
  simp only [hA]
  rw [if_neg (by rw [hla]; exact Bool.false_ne_true)]
  have hB : splitAtSub [')'] (b ++ (')' :: t)) = some (b, t) := by
    have hshape : (')' :: t : List Char) = [')'] ++ t := rfl
    rw [hshape]
    apply splitAtSub_build (by decide)
    exact noPreMid_head _ (noPre_of_mem ')' (by decide) hnb)
      (fun ch _ => by simp)
  simp only [hB]
  rw [if_neg (by rw [hlb]; exact Bool.false_ne_true)]

lemma tryHtmlComment_build {v t : List Char}
    (h : ∀ i < v.length, ¬ comClose <+: (v ++ (comClose ++ t)).drop i) :
    tryHtmlComment (comOpen ++ (v ++ (comClose ++ t))) = some ([], t) := by
  unfold tryHtmlComment
  simp only [stripPre_build]
  rw [splitAtSub_build (by decide) t h]

/-! ### The save-time round trip -/

/-- Well-formedness of a file url for the round trip: the `https://` scheme
followed by a run of characters legal in the bare-url character class,
containing `/subtask-attachments/` with at least one run character on each
side. -/
def WfUrl (url : List Char) : Prop :=
  ∃ u, url = httpsL ++ u ∧ (∀ ch ∈ u, urlChar ch = true) ∧ hasProperSeg u = true

lemma noPre_nil_of {lit : List Char} (h : lit ≠ []) : NoPre lit [] := by
  intro i hp
  rw [List.drop_nil, List.prefix_nil] at hp
  exact h hp

lemma urlChar_ne_space {ch : Char} (h : urlChar ch = true) : ch ≠ ' ' := by
  intro he
  rw [he] at h
  exact Bool.false_ne_true ((by decide : urlChar ' ' = false) ▸ h)

lemma nsChar_of_urlChar {ch : Char} (h : urlChar ch = true) : nsChar ch = true := by
  unfold urlChar at h
  unfold nsChar
  exact (Bool.and_eq_true _ _ |>.mp h).1

/-- No sentinel literal can start inside a well-formed url: a url has no
space character, while the literal contains two. -/
lemma noPre_url_sentinel {u : List Char} (hu : ∀ ch ∈ u, urlChar ch = true) :
    NoPre sentinelLit (httpsL ++ u) := by
  refine noPre_of_mem ' ' (by decide) ?_
  intro c hc
  rcases List.mem_append.mp hc with h | h
  · exact (by decide : ∀ x ∈ httpsL, x ≠ ' ') c h
  · exact urlChar_ne_space (hu c h)

/-- The fixed left part of one markdown link: `![`, the display name, `](`. -/
def linkPre (f : UploadedFile) : List Char := imgOpen ++ (f.name ++ brClose)

lemma linkPre_getLast (f : UploadedFile) : (linkPre f).getLast? = some '(' := by
  unfold linkPre
  rw [List.getLast?_append_of_ne_nil _ (by simp [brClose]),
    List.getLast?_append_of_ne_nil _ (by simp [brClose])]
  rfl

lemma noPre_linkPre {lit : List Char} (f : UploadedFile)
    (h1 : NoPre lit f.name) (h2 : NoPre lit imgOpen) (h3 : NoPre lit brClose)
    (hbr : (']' : Char) ∉ lit.drop 1) (hop : ('[' : Char) ∉ lit) :
    NoPre lit (linkPre f) := by
  unfold linkPre
  refine noPre_append_last h2 (noPre_append_head h1 h3 ?_) ?_
  · intro ch hch
    have : ch = ']' := by
      have hh : brClose.head? = some ']' := rfl
      rw [hh] at hch
      exact (Option.some.inj hch).symm
    rw [this]
    exact hbr
  · intro ch hch
    have : ch = '[' := by
      have hh : imgOpen.getLast? = some '[' := rfl
      rw [hh] at hch
      exact (Option.some.inj hch).symm
    rw [this]
    exact hop

lemma fileLinks_head : ∀ (f : UploadedFile) (rest : List UploadedFile),
    (fileLinks (f :: rest)).head? = some '!'
  | _, [] => rfl
  | _, _ :: _ => rfl

lemma fileLink_decomp (f : UploadedFile) {u : List Char} (hurl : f.url = httpsL ++ u)
    (z : List Char) :
    fileLink f ++ z = linkPre f ++ (httpsL ++ (u ++ (')' :: z))) := by
  simp [fileLink, linkPre, imgOpen, brClose, hurl, List.append_assoc]

/-- A tail starting with a closing parenthesis, preceded by a well-formed
url, contains no sentinel literal. -/
lemma noPre_urlBlock_sentinel {u z : List Char} (hu : ∀ ch ∈ u, urlChar ch = true)
    (hz : NoPre sentinelLit z) :
    NoPre sentinelLit (httpsL ++ (u ++ (')' :: z))) := by
  have hcz : NoPre sentinelLit (')' :: z) := by
    have hsh : (')' :: z) = [')'] ++ z := rfl
    rw [hsh]
    refine noPre_append_last (noPre_of_containsSub (by decide)) hz ?_
    intro ch hch
    have hch2 : (')' : Char) = ch := Option.some.inj hch
    rw [← hch2]
    decide
  rw [← List.append_assoc]
  refine noPre_append_head (noPre_url_sentinel hu) hcz ?_
  intro ch hch
  have hch2 : (')' : Char) = ch := Option.some.inj hch
  rw [← hch2]
  decide

/-- One whole markdown link followed by a benign tail contains no sentinel
literal. -/
lemma noPre_link_sentinel (f : UploadedFile) {u z : List Char}
    (hurl : f.url = httpsL ++ u) (hu : ∀ ch ∈ u, urlChar ch = true)
    (hname : containsSub httpsL f.name = false)
    (hz : NoPre sentinelLit z) :
    NoPre sentinelLit (fileLink f ++ z) := by
  rw [fileLink_decomp f hurl z]
  refine noPre_append_last
    (noPre_linkPre f (noPre_extendL sentinelPre (noPre_of_containsSub hname))
      (noPre_of_containsSub (by decide)) (noPre_of_containsSub (by decide))
      (by decide) (by decide))
    (noPre_urlBlock_sentinel hu hz) ?_
  intro ch hch
  rw [linkPre_getLast f] at hch
  have hch2 : ('(' : Char) = ch := Option.some.inj hch
  rw [← hch2]
  decide

/-- The whole markdown-link block contains no sentinel literal. -/
lemma noPre_links_sentinel : ∀ (R : List UploadedFile),
    (∀ f ∈ R, containsSub httpsL f.name = false) →
    (∀ f ∈ R, WfUrl f.url) →
    NoPre sentinelLit (fileLinks R)
  | [], _, _ => noPre_nil_of (by decide)
  | [f], hn, hw => by
    obtain ⟨u, hurl, hu, _⟩ := hw f (by simp)
    have heq : fileLinks [f] = fileLink f ++ [] := (List.append_nil _).symm
    rw [heq]
    exact noPre_link_sentinel f hurl hu (hn f (by simp)) (noPre_nil_of (by decide))
  | f :: g :: rest, hn, hw => by
    obtain ⟨u, hurl, hu, _⟩ := hw f (by simp)
    have hrec := noPre_links_sentinel (g :: rest)
      (fun x hx => hn x (List.mem_cons_of_mem f hx))
      (fun x hx => hw x (List.mem_cons_of_mem f hx))
    have htail : NoPre sentinelLit ('\n' :: fileLinks (g :: rest)) := by
      have hsh : ('\n' :: fileLinks (g :: rest)) = ['\n'] ++ fileLinks (g :: rest) := rfl
      rw [hsh]
      refine noPre_append_last (noPre_of_containsSub (by decide)) hrec ?_
      intro ch hch
      have hch2 : ('\n' : Char) = ch := Option.some.inj hch
      rw [← hch2]
      decide
    show NoPre sentinelLit (fileLink f ++ '\n' :: fileLinks (g :: rest))
    exact noPre_link_sentinel f hurl hu (hn f (by simp)) htail

/-! ### The markdown pass over the saved content -/

lemma noPre_https_linkPre (f : UploadedFile) (hname : containsSub httpsL f.name = false) :
    NoPre httpsL (linkPre f) := by
  unfold linkPre
  refine noPre_append_last (noPre_of_containsSub (by decide))
    (noPre_append_head (noPre_of_containsSub hname) (noPre_of_containsSub (by decide)) ?_) ?_
  · intro ch hch
    have hch2 : (']' : Char) = ch := Option.some.inj hch
    rw [← hch2]
    decide
  · intro ch hch
    have hch3 : imgOpen.getLast? = some '[' := rfl
    rw [hch3] at hch
    have hch2 : ('[' : Char) = ch := Option.some.inj hch
    rw [← hch2]
    decide

lemma extractMd_skip_linkPre (f : UploadedFile) (hname : containsSub httpsL f.name = false)
    (Y : List Char) : extractMd (linkPre f ++ Y) = extractMd Y := by
  apply extractMd_append
  apply noPreMid_last Y (noPre_https_linkPre f hname)
  intro ch hch
  rw [linkPre_getLast f] at hch
  have hch2 : ('(' : Char) = ch := Option.some.inj hch
  rw [← hch2]
  decide

lemma fileLinks_head? : ∀ {R : List UploadedFile}, R ≠ [] → (fileLinks R).head? = some '!'
  | [], h => absurd rfl h
  | [_], _ => rfl
  | _ :: _ :: _, _ => rfl

lemma extractMd_links : ∀ (R : List UploadedFile),
    (∀ f ∈ R, containsSub httpsL f.name = false) →
    (∀ f ∈ R, WfUrl f.url) →
    extractMd (fileLinks R) = R.map (fun f => f.url)
  | [], _, _ => rfl
  | [f], hn, hw => by
    obtain ⟨u, hurl, hu, hseg⟩ := hw f (by simp)
    have heq : fileLinks [f] = linkPre f ++ (httpsL ++ (u ++ (')' :: []))) := by
      have h2 := fileLink_decomp f hurl []
      rw [List.append_nil] at h2
      exact h2
    rw [heq, extractMd_skip_linkPre f (hn f (by simp))]
    have hstep := @tryUrl_build u [')'] hu hseg (by decide)
    rw [extractMd_step hstep]
    have hr : extractMd [')'] = [] := by decide
    rw [hr]
    simp [hurl]
  | f :: g :: rest, hn, hw => by
    obtain ⟨u, hurl, hu, hseg⟩ := hw f (by simp)
    have heq : fileLinks (f :: g :: rest) =
        linkPre f ++ (httpsL ++ (u ++ (')' :: ('\n' :: fileLinks (g :: rest))))) := by
      show fileLink f ++ '\n' :: fileLinks (g :: rest) = _
      exact fileLink_decomp f hurl ('\n' :: fileLinks (g :: rest))
    rw [heq, extractMd_skip_linkPre f (hn f (by simp))]
    have hstep := @tryUrl_build u (')' :: '\n' :: fileLinks (g :: rest)) hu hseg
      (List.takeWhile_cons_of_neg (by decide))
    rw [extractMd_step hstep]
    have hsh : (')' :: '\n' :: fileLinks (g :: rest)) = [')', '\n'] ++ fileLinks (g :: rest) :=
      rfl
    have hskip2 : extractMd ([')', '\n'] ++ fileLinks (g :: rest)) =
        extractMd (fileLinks (g :: rest)) := by
      apply extractMd_append
      apply noPreMid_head _ (noPre_of_containsSub (by decide))
      intro ch hch
      rw [fileLinks_head? (by simp)] at hch
      have hch2 : ('!' : Char) = ch := Option.some.inj hch
      rw [← hch2]
      decide
    rw [hsh, hskip2, extractMd_links (g :: rest)
      (fun x hx => hn x (List.mem_cons_of_mem f hx))
      (fun x hx => hw x (List.mem_cons_of_mem f hx))]
    simp [hurl]

lemma noPre_sentinel_content {c : List Char} {R : List UploadedFile}
    (hc : containsSub httpsL c = false)
    (hn : ∀ f ∈ R, containsSub httpsL f.name = false)
    (hw : ∀ f ∈ R, WfUrl f.url) :
    NoPre sentinelLit (contentWithFiles c R) := by
  unfold contentWithFiles
  by_cases hR : R.isEmpty
  · rw [if_pos hR]
    exact noPre_extendL sentinelPre (noPre_of_containsSub hc)
  · rw [if_neg hR]
    by_cases hcc : c.isEmpty
    · rw [if_pos hcc]
      exact noPre_links_sentinel R hn hw
    · rw [if_neg hcc]
      have hsh : ('\n' :: '\n' :: fileLinks R) = ['\n', '\n'] ++ fileLinks R := rfl
      rw [hsh]
      refine noPre_append_head (noPre_extendL sentinelPre (noPre_of_containsSub hc)) ?_ ?_
      · refine noPre_append_last (noPre_of_containsSub (by decide))
          (noPre_links_sentinel R hn hw) ?_
        intro ch hch
        have hch2 : ('\n' : Char) = ch := Option.some.inj hch
        rw [← hch2]
        decide
      · intro ch hch
        have hch2 : ('\n' : Char) = ch := Option.some.inj hch
        rw [← hch2]
        decide

lemma extractMd_content {c : List Char} {R : List UploadedFile}
    (hc : containsSub httpsL c = false)
    (hn : ∀ f ∈ R, containsSub httpsL f.name = false)
    (hw : ∀ f ∈ R, WfUrl f.url) :
    extractMd (contentWithFiles c R) = R.map (fun f => f.url) := by
  unfold contentWithFiles
  by_cases hR : R.isEmpty
  · rw [if_pos hR]
    have hRn : R = [] := List.isEmpty_iff.mp hR
    subst hRn
    rw [extractMd_none (noPre_of_containsSub hc)]
    rfl
  · rw [if_neg hR]
    have hRne : R ≠ [] := fun hh => hR (by rw [hh]; rfl)
    by_cases hcc : c.isEmpty
    · rw [if_pos hcc]
      exact extractMd_links R hn hw
    · rw [if_neg hcc]
      have hsh : (c ++ '\n' :: '\n' :: fileLinks R) = (c ++ ['\n', '\n']) ++ fileLinks R := by
        rw [List.append_assoc]
        rfl
      rw [hsh]
      have hskip : extractMd ((c ++ ['\n', '\n']) ++ fileLinks R) =
          extractMd (fileLinks R) := by
        apply extractMd_append
        apply noPreMid_head _ ?np ?hb
        case np =>
          refine noPre_append_head (noPre_of_containsSub hc)
            (noPre_of_containsSub (by decide)) ?_
          intro ch hch
          have hch2 : ('\n' : Char) = ch := Option.some.inj hch
          rw [← hch2]
          decide
        case hb =>
          intro ch hch
          rw [fileLinks_head? hRne] at hch
          have hch2 : ('!' : Char) = ch := Option.some.inj hch
          rw [← hch2]
          decide
      rw [hskip]
      exact extractMd_links R hn hw

/-- The central round-trip fact: extraction applied to saved content recovers
exactly the urls of the newly attached files, in order, deduplicated — as
long as the pre-existing content and the display names carry no `https://`
and the urls are well formed. -/
lemma extract_saved {c : List Char} {R : List UploadedFile}
    (hc : containsSub httpsL c = false)
    (hn : ∀ f ∈ R, containsSub httpsL f.name = false)
    (hw : ∀ f ∈ R, WfUrl f.url) :
    extractFileUrls (contentWithFiles c R) = dedupFirst (R.map (fun f => f.url)) := by
  unfold extractFileUrls
  rw [extractComments_none (noPre_sentinel_content hc hn hw), extractMd_content hc hn hw,
    List.nil_append]

/-! ### Properties of first-occurrence deduplication -/

lemma dedupFirstAux_sublist : ∀ (seen l : List (List Char)), (dedupFirstAux seen l).Sublist l
  | _, [] => List.Sublist.refl []
  | seen, x :: xs => by
    unfold dedupFirstAux
    by_cases hx : x ∈ seen
    · rw [if_pos hx]
      exact (dedupFirstAux_sublist seen xs).cons x
    · rw [if_neg hx]
      exact (dedupFirstAux_sublist (x :: seen) xs).cons₂ x

lemma dedupFirstAux_mem : ∀ (seen l : List (List Char)) (y : List Char),
    y ∈ dedupFirstAux seen l ↔ y ∈ l ∧ y ∉ seen
  | _, [], y => by simp [dedupFirstAux]
  | seen, x :: xs, y => by
    unfold dedupFirstAux
    by_cases hx : x ∈ seen
    · rw [if_pos hx, dedupFirstAux_mem seen xs y]
      constructor
      · exact fun ⟨h1, h2⟩ => ⟨List.mem_cons_of_mem x h1, h2⟩
      · rintro ⟨h1, h2⟩
        rcases List.mem_cons.mp h1 with he | he
        · exact absurd (he ▸ hx) h2
        · exact ⟨he, h2⟩
    · rw [if_neg hx]
      constructor
      · intro hy
        rcases List.mem_cons.mp hy with he | he
        · exact ⟨he ▸ List.mem_cons_self x xs, he ▸ hx⟩
        · obtain ⟨h1, h2⟩ := (dedupFirstAux_mem (x :: seen) xs y).mp he
          exact ⟨List.mem_cons_of_mem x h1, fun hc => h2 (List.mem_cons_of_mem x hc)⟩
      · rintro ⟨h1, h2⟩
        rcases List.mem_cons.mp h1 with he | he
        · exact he ▸ List.mem_cons_self x _
        · by_cases hyx : y = x
          · exact hyx ▸ List.mem_cons_self x _
          · exact List.mem_cons_of_mem x ((dedupFirstAux_mem (x :: seen) xs y).mpr
              ⟨he, fun hc => (List.mem_cons.mp hc).elim hyx h2⟩)

lemma dedupFirstAux_nodup : ∀ (seen l : List (List Char)), (dedupFirstAux seen l).Nodup
  | _, [] => List.nodup_nil
  | seen, x :: xs => by
    unfold dedupFirstAux
    by_cases hx : x ∈ seen
    · rw [if_pos hx]
      exact dedupFirstAux_nodup seen xs
    · rw [if_neg hx]
      refine List.nodup_cons.mpr ⟨?_, dedupFirstAux_nodup (x :: seen) xs⟩
      intro hc
      exact ((dedupFirstAux_mem (x :: seen) xs x).mp hc).2 (List.mem_cons_self x seen)

lemma dedupFirstAux_seen_congr : ∀ (seen seen' l : List (List Char)),
    (∀ a : List Char, a ∈ seen ↔ a ∈ seen') →
    dedupFirstAux seen l = dedupFirstAux seen' l
  | _, _, [], _ => rfl
  | seen, seen', x :: xs, h => by
    unfold dedupFirstAux
    by_cases hx : x ∈ seen
    · rw [if_pos hx, if_pos ((h x).mp hx)]
      exact dedupFirstAux_seen_congr seen seen' xs h
    · rw [if_neg hx, if_neg (fun hc => hx ((h x).mpr hc))]
      rw [dedupFirstAux_seen_congr (x :: seen) (x :: seen') xs (fun a => by
        simp only [List.mem_cons]
        exact or_congr Iff.rfl (h a))]

lemma dedupFirstAux_seen_filter : ∀ (x : List Char) (seen l : List (List Char)),
    dedupFirstAux (x :: seen) l = dedupFirstAux seen (l.filter (· ≠ x))
  | _, _, [] => rfl
  | x, seen, y :: ys => by
    by_cases hyx : y = x
    · subst hyx
      have hf : (y :: ys).filter (· ≠ y) = ys.filter (· ≠ y) := by
        simp [List.filter_cons]
      rw [hf]
      show (if y ∈ y :: seen then dedupFirstAux (y :: seen) ys
        else y :: dedupFirstAux (y :: y :: seen) ys) = _
      rw [if_pos (List.mem_cons_self y seen)]
      exact dedupFirstAux_seen_filter y seen ys
    · have hf : (y :: ys).filter (· ≠ x) = y :: ys.filter (· ≠ x) := by
        simp [List.filter_cons, hyx]
      rw [hf]
      show (if y ∈ x :: seen then dedupFirstAux (x :: seen) ys
        else y :: dedupFirstAux (y :: x :: seen) ys) = _
      show _ = (if y ∈ seen then dedupFirstAux seen (ys.filter (· ≠ x))
        else y :: dedupFirstAux (y :: seen) (ys.filter (· ≠ x)))
      by_cases hy : y ∈ seen
      · rw [if_pos (List.mem_cons_of_mem x hy), if_pos hy]
        exact dedupFirstAux_seen_filter x seen ys
      · rw [if_neg (fun hc => (List.mem_cons.mp hc).elim hyx hy), if_neg hy]
        rw [← dedupFirstAux_seen_filter x (y :: seen) ys]
        rw [dedupFirstAux_seen_congr (y :: x :: seen) (x :: y :: seen) ys (fun a => by
          simp only [List.mem_cons]
          tauto)]

lemma dedupFirst_sublist (l : List (List Char)) : (dedupFirst l).Sublist l :=
  dedupFirstAux_sublist [] l

lemma dedupFirst_nodup (l : List (List Char)) : (dedupFirst l).Nodup :=
  dedupFirstAux_nodup [] l

lemma dedupFirst_mem (l : List (List Char)) (y : List Char) :
    y ∈ dedupFirst l ↔ y ∈ l := by
  rw [dedupFirst, dedupFirstAux_mem]
  simp

lemma dedupFirst_cons (x : List Char) (xs : List (List Char)) :
    dedupFirst (x :: xs) = x :: dedupFirst (xs.filter (· ≠ x)) := by
  show dedupFirstAux [] (x :: xs) = _
  unfold dedupFirstAux
  rw [if_neg (List.not_mem_nil x), dedupFirstAux_seen_filter]
  rfl

/-! ### Path-splitting lemmas for storage keys -/

lemma splitOnChar_first {sep : Char} : ∀ {x : List Char} (y : List Char),
    (∀ a ∈ x, a ≠ sep) → splitOnChar sep (x ++ sep :: y) = x :: splitOnChar sep y
  | [], y, _ => by
    show splitOnChar sep (sep :: y) = _
    conv_lhs => rw [splitOnChar]
    rw [if_pos rfl]
  | c :: x, y, h => by
    rw [List.cons_append]
    conv_lhs => rw [splitOnChar]
    rw [if_neg (h c (List.mem_cons_self c x)),
      splitOnChar_first y (fun a ha => h a (List.mem_cons_of_mem c ha))]

lemma firstSeg_append {x y : List Char} (hx : ∀ a ∈ x, a ≠ '/') :
    firstSeg (x ++ '/' :: y) = x := by
  unfold firstSeg
  rw [splitOnChar_first y hx]
  rfl

lemma lastSplit_no_sep {sep : Char} : ∀ (s : List Char), ∀ a ∈ lastSplit sep s, a ≠ sep := by
  have hparts : ∀ (s : List Char), ∀ p ∈ splitOnChar sep s, ∀ a ∈ p, a ≠ sep := by
    intro s
    induction s with
    | nil => intro p hp a ha; simp [splitOnChar] at hp; subst hp; simp at ha
    | cons c t ih =>
      intro p hp a ha
      unfold splitOnChar at hp
      by_cases hc : c = sep
      · rw [if_pos hc] at hp
        rcases List.mem_cons.mp hp with he | he
        · subst he; simp at ha
        · exact ih p he a ha
      · rw [if_neg hc] at hp
        cases hsp : splitOnChar sep t with
        | nil => rw [hsp] at hp; simp at hp; subst hp; simp at ha; rw [ha]; exact hc
        | cons h0 r =>
          rw [hsp] at hp
          rcases List.mem_cons.mp hp with he | he
          · subst he
            rcases List.mem_cons.mp ha with ha | ha
            · rw [ha]; exact hc
            · exact ih h0 (hsp ▸ List.mem_cons_self h0 r) a ha
          · exact ih p (hsp ▸ List.mem_cons_of_mem h0 he) a ha
  intro s a ha
  unfold lastSplit at ha
  cases hg : (splitOnChar sep s).getLast? with
  | none => rw [hg] at ha; simp at ha
  | some p =>
    rw [hg] at ha
    exact hparts s p (List.mem_of_mem_getLast? hg) a ha

/-! ### Shaped cleaning for the PDF export -/

/-- One well-formed legacy image-markdown span `![a](b)`. -/
def imgSpan (a b : List Char) : List Char := imgOpen ++ (a ++ (brClose ++ (b ++ [')'])))

/-- One HTML comment span `<!--s-->`. -/
def comSpan (s : List Char) : List Char := comOpen ++ (s ++ comClose)

lemma cleanContent_id {v : List Char} (h1 : containsSub imgOpen v = false)
    (h2 : containsSub comOpen v = false) : cleanContent v = v := by
  unfold cleanContent
  rw [replaceImages_id (noPre_of_containsSub h1), stripComments_id (noPre_of_containsSub h2)]

/-- Content shapes for the cleaning theorem: span-free text, one image
span, one comment span. -/
inductive Piece where
  | plain (t : List Char)
  | img (a b : List Char)
  | com (s : List Char)

/-- The content a piece list denotes. -/
def renderPieces : List Piece → List Char
  | [] => []
  | .plain t :: rest => t ++ renderPieces rest
  | .img a b :: rest => imgSpan a b ++ renderPieces rest
  | .com s :: rest => comSpan s ++ renderPieces rest

/-- The content after the image-replacement pass: image spans replaced by
the placeholder, everything else untouched. -/
def afterImages : List Piece → List Char
  | [] => []
  | .plain t :: rest => t ++ afterImages rest
  | .img _ _ :: rest => imageTok ++ afterImages rest
  | .com s :: rest => comSpan s ++ afterImages rest

/-- The fully cleaned content: image spans replaced by the placeholder,
comment spans deleted, all other text verbatim. -/
def cleanedPieces : List Piece → List Char
  | [] => []
  | .plain t :: rest => t ++ cleanedPieces rest
  | .img _ _ :: rest => imageTok ++ cleanedPieces rest
  | .com _ :: rest => cleanedPieces rest

/-- Well-formed, non-overlapping pieces: span-free text opens no span; the
lazy parts of an image span stop where the span says (no closer inside, no
line terminator); a comment body opens no image span, contains no early
closer and does not end in a character of the closer. -/
def WfPiece : Piece → Prop
  | .plain t => containsSub imgOpen t = false ∧ containsSub comOpen t = false
  | .img a b => (∀ ch ∈ a, ch ≠ ']') ∧ a.any isLineTerm = false ∧
      (∀ ch ∈ b, ch ≠ ')') ∧ b.any isLineTerm = false
  | .com s => containsSub imgOpen s = false ∧ containsSub comClose s = false ∧
      (∀ ch ∈ s.reverse.take 1, ch ∉ comClose)

instance (p : Piece) : Decidable (WfPiece p) :=
  match p with
  | .plain _ => inferInstanceAs (Decidable (_ ∧ _))
  | .img _ _ => inferInstanceAs (Decidable (_ ∧ _ ∧ _ ∧ _))
  | .com _ => inferInstanceAs (Decidable (_ ∧ _ ∧ _))

/-- No two adjacent span-free text pieces (adjacent text runs merge into one
piece; keeping them separate could hide a span straddling the seam). -/
def noAdjPlain : List Piece → Bool
  | .plain _ :: .plain _ :: _ => false
  | _ :: rest => noAdjPlain rest
  | [] => true

lemma noAdjPlain_tail {p : Piece} {rest : List Piece}
    (h : noAdjPlain (p :: rest) = true) : noAdjPlain rest = true := by
  cases rest with
  | nil => rfl
  | cons q r =>
    cases p with
    | plain t =>
      cases q with
      | plain t2 => exact absurd h (by simp [noAdjPlain])
      | img a b => exact h
      | com s => exact h
    | img a b => exact h
    | com s => exact h

lemma getLast?_mem_rev_take {s : List Char} {ch : Char} (h : s.getLast? = some ch) :
    ch ∈ s.reverse.take 1 := by
  cases hr : s.reverse with
  | nil =>
    have hs : s = [] := by
      have h2 := congrArg List.reverse hr
      simpa using h2
    rw [hs] at h
    simp at h
  | cons a t =>
    have hs : s = (a :: t).reverse := by
      have h2 := congrArg List.reverse hr
      simpa using h2
    rw [hs] at h
    have hg : ((a :: t).reverse).getLast? = some a := by
      rw [List.reverse_cons, List.getLast?_append_of_ne_nil _ (by simp)]
      rfl
    rw [hg] at h
    have hac : a = ch := Option.some.inj h
    subst hac
    exact List.mem_cons_self _ _

lemma comSpan_getLast (s : List Char) : (comSpan s).getLast? = some '>' := by
  unfold comSpan
  have h3 : comClose.length = 3 := rfl
  have hne : s ++ comClose ≠ [] := by
    intro hc
    have h0 := congrArg List.length hc
    rw [List.length_append, h3, List.length_nil] at h0
    omega
  rw [List.getLast?_append_of_ne_nil _ hne,
    List.getLast?_append_of_ne_nil _ (by decide : comClose ≠ [])]
  rfl

lemma noPre_img_comSpan {s : List Char} (hs : containsSub imgOpen s = false) :
    NoPre imgOpen (comSpan s) := by
  unfold comSpan
  refine noPre_append_last (noPre_of_containsSub (by decide))
    (noPre_append_head (noPre_of_containsSub hs) (noPre_of_containsSub (by decide)) ?_) ?_
  · intro ch hch
    have hch2 : ('-' : Char) = ch := Option.some.inj hch
    rw [← hch2]
    decide
  · intro ch hch
    have hg : comOpen.getLast? = some '-' := rfl
    rw [hg] at hch
    have hch2 : ('-' : Char) = ch := Option.some.inj hch
    rw [← hch2]
    decide

/-- Image-replacement pass over a whole well-formed piece list. -/
lemma replaceImages_pieces : ∀ (P : List Piece), (∀ p ∈ P, WfPiece p) →
    noAdjPlain P = true → replaceImages (renderPieces P) = afterImages P
  | [], _, _ => rfl
  | .img a b :: rest, hwf, hadj => by
    obtain ⟨ha1, ha2, hb1, hb2⟩ := hwf _ (List.mem_cons_self _ _)
    have heq : renderPieces (.img a b :: rest) =
        imgOpen ++ (a ++ (brClose ++ (b ++ (')' :: renderPieces rest)))) := by
      show imgSpan a b ++ renderPieces rest = _
      simp [imgSpan, List.append_assoc]
    rw [heq, replaceImages_step (tryImage_build ha1 ha2 hb1 hb2),
      replaceImages_pieces rest (fun p hp => hwf p (List.mem_cons_of_mem _ hp))
        (noAdjPlain_tail hadj)]
    rfl
  | .com s :: rest, hwf, hadj => by
    obtain ⟨hs1, hs2, hs3⟩ := hwf _ (List.mem_cons_self _ _)
    show replaceImages (comSpan s ++ renderPieces rest) = comSpan s ++ afterImages rest
    rw [replaceImages_append (noPreMid_last _ (noPre_img_comSpan hs1) (fun ch hch => by
        rw [comSpan_getLast] at hch
        have hch2 : ('>' : Char) = ch := Option.some.inj hch
        rw [← hch2]
        decide)),
      replaceImages_pieces rest (fun p hp => hwf p (List.mem_cons_of_mem _ hp))
        (noAdjPlain_tail hadj)]
  | .plain t :: rest, hwf, hadj => by
    obtain ⟨ht1, ht2⟩ := hwf _ (List.mem_cons_self _ _)
    show replaceImages (t ++ renderPieces rest) = t ++ afterImages rest
    have hb : ∀ ch, (renderPieces rest).head? = some ch → ch ∉ imgOpen.drop 1 := by
      intro ch hch
      cases rest with
      | nil => simp [renderPieces] at hch
      | cons q r =>
        cases q with
        | plain t2 =>
          have hfalse : noAdjPlain (Piece.plain t :: Piece.plain t2 :: r) = false := rfl
          rw [hfalse] at hadj
          exact absurd hadj (by simp)
        | img a2 b2 =>
          have hch2 : ('!' : Char) = ch := Option.some.inj hch
          rw [← hch2]
          decide
        | com s2 =>
          have hch2 : ('<' : Char) = ch := Option.some.inj hch
          rw [← hch2]
          decide
    rw [replaceImages_append (noPreMid_head _ (noPre_of_containsSub ht1) hb),
      replaceImages_pieces rest (fun p hp => hwf p (List.mem_cons_of_mem _ hp))
        (noAdjPlain_tail hadj)]

/-- Comment-deletion pass over the output of the image pass. -/
lemma stripComments_pieces : ∀ (P : List Piece), (∀ p ∈ P, WfPiece p) →
    noAdjPlain P = true → stripComments (afterImages P) = cleanedPieces P
  | [], _, _ => rfl
  | .img a b :: rest, hwf, hadj => by
    show stripComments (imageTok ++ afterImages rest) = imageTok ++ cleanedPieces rest
    rw [stripComments_append (noPreMid_last _ (noPre_of_containsSub (by decide))
        (fun ch hch => by
          have hg : imageTok.getLast? = some ']' := rfl
          rw [hg] at hch
          have hch2 : (']' : Char) = ch := Option.some.inj hch
          rw [← hch2]
          decide)),
      stripComments_pieces rest (fun p hp => hwf p (List.mem_cons_of_mem _ hp))
        (noAdjPlain_tail hadj)]
  | .com s :: rest, hwf, hadj => by
    obtain ⟨hs1, hs2, hs3⟩ := hwf _ (List.mem_cons_self _ _)
    show stripComments (comSpan s ++ afterImages rest) = cleanedPieces rest
    have heq : comSpan s ++ afterImages rest =
        comOpen ++ (s ++ (comClose ++ afterImages rest)) := by
      simp [comSpan, List.append_assoc]
    rw [heq, stripComments_step (tryHtmlComment_build (noPreMid_last _
        (noPre_of_containsSub hs2) (fun ch hch => hs3 ch (getLast?_mem_rev_take hch)))),
      stripComments_pieces rest (fun p hp => hwf p (List.mem_cons_of_mem _ hp))
        (noAdjPlain_tail hadj)]
  | .plain t :: rest, hwf, hadj => by
    obtain ⟨ht1, ht2⟩ := hwf _ (List.mem_cons_self _ _)
    show stripComments (t ++ afterImages rest) = t ++ cleanedPieces rest
    have hb : ∀ ch, (afterImages rest).head? = some ch → ch ∉ comOpen.drop 1 := by
      intro ch hch
      cases rest with
      | nil => simp [afterImages] at hch
      | cons q r =>
        cases q with
        | plain t2 =>
          have hfalse : noAdjPlain (Piece.plain t :: Piece.plain t2 :: r) = false := rfl
          rw [hfalse] at hadj
          exact absurd hadj (by simp)
        | img a2 b2 =>
          have hch2 : ('[' : Char) = ch := Option.some.inj hch
          rw [← hch2]
          decide
        | com s2 =>
          have hch2 : ('<' : Char) = ch := Option.some.inj hch
          rw [← hch2]
          decide
    rw [stripComments_append (noPreMid_head _ (noPre_of_containsSub ht2) hb),
      stripComments_pieces rest (fun p hp => hwf p (List.mem_cons_of_mem _ hp))
        (noAdjPlain_tail hadj)]

/-- Both cleaning passes over a whole well-formed piece list. -/
lemma cleanContent_pieces {P : List Piece} (hwf : ∀ p ∈ P, WfPiece p)
    (hadj : noAdjPlain P = true) : cleanContent (renderPieces P) = cleanedPieces P := by
  unfold cleanContent
  rw [replaceImages_pieces P hwf hadj, stripComments_pieces P hwf hadj]

/-! ### Facts about session validation -/

lemma validateSession_fst_true {tok : TokenState} {now : Int} {prov : ProviderResult}
    {retry : Nat} (h : (validateSession tok now prov retry).1 = true) :
    validateSession tok now prov retry = (true, true, 0) := by
  cases tok with
  | missing => simp [validateSession] at h
  | undecodable => simp [validateSession] at h
  | payload exp =>
    cases he : expTruthyLt exp now with
    | true => simp [validateSession, he] at h
    | false =>
      cases prov with
      | fail => simp [validateSession, he] at h
      | ok => simp [validateSession, he]

lemma validateSession_fst_false {tok : TokenState} {now : Int} {prov : ProviderResult}
    {retry : Nat} (h : (validateSession tok now prov retry).1 = false) :
    (validateSession tok now prov retry).2.2 = retry := by
  cases tok with
  | missing => simp [validateSession]
  | undecodable => simp [validateSession]
  | payload exp =>
    cases he : expTruthyLt exp now with
    | true => simp [validateSession, he]
    | false =>
      cases prov with
      | fail => simp [validateSession, he]
      | ok => simp [validateSession, he] at h

/-! ## The claims -/

/-- C3: in the credential liveness check with the session present, every
successful validation resets the failure counter to 0 without signing out;
every failed validation increments it; exactly when the incremented counter
reaches `maxRetries` one forced sign-out occurs (cache cleanup and provider
sign-out) and the counter resets to 0.  With `maxRetries = 3`, three
consecutive failed validations produce exactly one sign-out and final counter
0, while a successful validation after one or two failures resets the counter
with no sign-out. -/
theorem C3_liveness_threshold :
    (∀ (tok : TokenState) (now : Int) (prov : ProviderResult) (maxRetries retry : Nat),
      (validateSession tok now prov retry).1 = true →
      performSessionCheck true tok now prov maxRetries retry = ⟨0, false, false, true⟩) ∧
    (∀ (tok : TokenState) (now : Int) (prov : ProviderResult) (maxRetries retry : Nat),
      (validateSession tok now prov retry).1 = false →
      retry + 1 < maxRetries →
      (performSessionCheck true tok now prov maxRetries retry).retry = retry + 1 ∧
      (performSessionCheck true tok now prov maxRetries retry).signedOut = false ∧
      (performSessionCheck true tok now prov maxRetries retry).cleaned = false) ∧
    (∀ (tok : TokenState) (now : Int) (prov : ProviderResult) (maxRetries retry : Nat),
      (validateSession tok now prov retry).1 = false →
      maxRetries ≤ retry + 1 →
      (performSessionCheck true tok now prov maxRetries retry).retry = 0 ∧
      (performSessionCheck true tok now prov maxRetries retry).signedOut = true ∧
      (performSessionCheck true tok now prov maxRetries retry).cleaned = true) ∧
    runChecks 3 0 [⟨true, .payload (some 5), 10, .ok⟩, ⟨true, .payload (some 5), 10, .ok⟩,
      ⟨true, .payload (some 5), 10, .ok⟩] = (0, 1) ∧
    runChecks 3 0 [⟨true, .payload (some 5), 10, .ok⟩, ⟨true, .payload (some 20), 10, .ok⟩]
      = (0, 0) ∧
    runChecks 3 0 [⟨true, .payload (some 5), 10, .ok⟩, ⟨true, .payload (some 5), 10, .ok⟩,
      ⟨true, .payload (some 20), 10, .ok⟩] = (0, 0) := by
  refine ⟨?_, ?_, ?_, by decide, by decide, by decide⟩
  · intro tok now prov maxRetries retry h
    have hv := validateSession_fst_true h
    simp [performSessionCheck, hv]
  · intro tok now prov maxRetries retry h hlt
    have hr := validateSession_fst_false h
    rcases hvv : validateSession tok now prov retry with ⟨b, called, r1⟩
    rw [hvv] at h hr
    simp only at h hr
    subst h
    subst hr
    simp only [performSessionCheck, Bool.not_true, Bool.false_eq_true, if_false, hvv]
    rw [if_neg (by omega)]
    exact ⟨rfl, rfl, rfl⟩
  · intro tok now prov maxRetries retry h hle
    have hr := validateSession_fst_false h
    rcases hvv : validateSession tok now prov retry with ⟨b, called, r1⟩
    rw [hvv] at h hr
    simp only at h hr
    subst h
    subst hr
    simp only [performSessionCheck, Bool.not_true, Bool.false_eq_true, if_false, hvv]
    rw [if_pos hle]
    exact ⟨rfl, rfl, rfl⟩

/-- C3 witness: a concrete instance of each guarded part — a successful
validation resets the counter, a first failure increments it without sign-out,
and a third consecutive failure signs out and resets. -/
theorem C3_witness :
    performSessionCheck true (.payload (some 20)) 10 .ok 3 2 = ⟨0, false, false, true⟩ ∧
    (performSessionCheck true (.payload (some 5)) 10 .ok 3 0).retry = 1 ∧
    (performSessionCheck true (.payload (some 5)) 10 .ok 3 0).signedOut = false ∧
    (performSessionCheck true (.payload (some 5)) 10 .ok 3 2).retry = 0 ∧
    (performSessionCheck true (.payload (some 5)) 10 .ok 3 2).signedOut = true := by
  refine ⟨C3_liveness_threshold.1 _ _ _ _ _ (by decide), ?_, ?_, ?_, ?_⟩
  · exact (C3_liveness_threshold.2.1 _ _ _ 3 0 (by decide) (by omega)).1
  · exact (C3_liveness_threshold.2.1 _ _ _ 3 0 (by decide) (by omega)).2.1
  · exact (C3_liveness_threshold.2.2.1 _ _ _ 3 2 (by decide) (by omega)).1
  · exact (C3_liveness_threshold.2.2.1 _ _ _ 3 2 (by decide) (by omega)).2.1

/-- C5 counterexample: a decoded `exp` claim equal to 0 is in the past
(0 < 1 = now), yet `validateSession` does contact the auth provider and even
returns `true` — because the JavaScript truthiness test `tokenPayload.exp &&
tokenPayload.exp < currentTime` treats the number 0 as falsy and skips the
expiry fast path. -/
theorem C5_counterexample :
    validateSession (.payload (some 0)) 1 .ok 0 = (true, true, 0) := by decide

/-- C5 (amended): `validateSession` returns `false` without contacting the
provider when no credential is held, when the credential cannot be decoded,
and when the decoded `exp` claim is nonzero and earlier than the current
time; any provider failure is collapsed to `false`.  (The original claim
omitted the nonzero qualifier; `exp = 0` slips past the truthiness test.) -/
theorem C5_fail_closed :
    (∀ (now : Int) (prov : ProviderResult) (retry : Nat),
      validateSession .missing now prov retry = (false, false, retry)) ∧
    (∀ (now : Int) (prov : ProviderResult) (retry : Nat),
      validateSession .undecodable now prov retry = (false, false, retry)) ∧
    (∀ (e now : Int) (prov : ProviderResult) (retry : Nat), e ≠ 0 → e < now →
      validateSession (.payload (some e)) now prov retry = (false, false, retry)) ∧
    (∀ (exp : Option Int) (now : Int) (retry : Nat),
      (validateSession (.payload exp) now .fail retry).1 = false) := by
  refine ⟨fun _ _ _ => rfl, fun _ _ _ => rfl, ?_, ?_⟩
  · intro e now prov retry he hlt
    have ht : expTruthyLt (some e) now = true := by
      simp [expTruthyLt, he, hlt]
    simp [validateSession, ht]
  · intro exp now retry
    cases he : expTruthyLt exp now <;> simp [validateSession, he]

/-- C5 witness: a nonzero expired claim is rejected without a provider call,
at a concrete input. -/
theorem C5_witness :
    validateSession (.payload (some 5)) 10 .ok 2 = (false, false, 2) :=
  C5_fail_closed.2.2.1 5 10 .ok 2 (by decide) (by decide)

/-- C1 counterexample: saving with an empty reference list leaves the content
unchanged, so a sentinel already present in the content is extracted — with
`R = []`, `extract(encode(c, R))` is not the (empty) url list of `R`,
refuting the claimed independence from what `c` already contains. -/
theorem C1_counterexample :
    extractFileUrls (contentWithFiles "<!-- attachment: https://z -->".toList []) ≠
      ([] : List UploadedFile).map (fun f => f.url) := by decide

/-- C1 (amended): the save-time encoder writes markdown image links, not
sentinels; restricted to pre-existing content and display names that contain
no `https://` occurrence, and to well-formed attachment urls (scheme plus a
run of url-class characters containing `/subtask-attachments/` with at least
one character on each side), extraction of the saved content returns exactly
the urls of the newly attached list, in order, deduplicated keeping first
occurrences. -/
theorem C1_round_trip :
    ∀ (c : List Char) (R : List UploadedFile),
      containsSub httpsL c = false →
      (∀ f ∈ R, containsSub httpsL f.name = false) →
      (∀ f ∈ R, WfUrl f.url) →
      extractFileUrls (contentWithFiles c R) = dedupFirst (R.map (fun f => f.url)) :=
  fun _ _ hc hn hw => extract_saved hc hn hw

/-- C1 witness: a concrete save of three files (the third a duplicate url of
the first) over nonempty content, with hypotheses discharged by computation. -/
theorem C1_witness :
    extractFileUrls (contentWithFiles "some notes".toList
      [⟨"https://h.co/subtask-attachments/a.png".toList, "a.png".toList, 3,
        "image/png".toList⟩,
       ⟨"https://h.co/subtask-attachments/b.pdf".toList, "b.pdf".toList, 4,
        "application/pdf".toList⟩,
       ⟨"https://h.co/subtask-attachments/a.png".toList, "dup.png".toList, 3,
        "image/png".toList⟩]) =
      ["https://h.co/subtask-attachments/a.png".toList,
       "https://h.co/subtask-attachments/b.pdf".toList] := by
  have h := C1_round_trip "some notes".toList
    [⟨"https://h.co/subtask-attachments/a.png".toList, "a.png".toList, 3,
      "image/png".toList⟩,
     ⟨"https://h.co/subtask-attachments/b.pdf".toList, "b.pdf".toList, 4,
      "application/pdf".toList⟩,
     ⟨"https://h.co/subtask-attachments/a.png".toList, "dup.png".toList, 3,
      "image/png".toList⟩]
    (by decide)
    (by
      intro f hf
      simp only [List.mem_cons, List.not_mem_nil, or_false] at hf
      rcases hf with h | h | h <;> subst h <;> decide)
    (by
      intro f hf
      simp only [List.mem_cons, List.not_mem_nil, or_false] at hf
      rcases hf with h | h | h <;> subst h
      · exact ⟨"h.co/subtask-attachments/a.png".toList, by decide, by decide, by decide⟩
      · exact ⟨"h.co/subtask-attachments/b.pdf".toList, by decide, by decide, by decide⟩
      · exact ⟨"h.co/subtask-attachments/a.png".toList, by decide, by decide, by decide⟩)
  rw [h]
  decide

/-- C2 counterexample: saving two uploads over empty content persists
markdown image links, not the claimed HTML-comment sentinel encoding. -/
theorem C2_counterexample :
    contentWithFiles []
      [⟨"https://h.co/subtask-attachments/u/a.png".toList, "a.png".toList, 3,
        "image/png".toList⟩,
       ⟨"https://h.co/subtask-attachments/u/b.pdf".toList, "b.pdf".toList, 4,
        "application/pdf".toList⟩] ≠
      ("<!-- attachment: https://h.co/subtask-attachments/u/a.png -->\n" ++
       "<!-- attachment: https://h.co/subtask-attachments/u/b.pdf -->").toList := by decide

/-- C2 (amended): starting from empty content and saving after uploading
`a.png` (url `U1`) and `b.pdf` (url `U2`), the persisted content is the
markdown form `![a.png](U1)\n![b.pdf](U2)`, and extraction on that persisted
string returns `[U1, U2]`. -/
theorem C2_scenario :
    contentWithFiles []
      [⟨"https://h.co/subtask-attachments/u/a.png".toList, "a.png".toList, 3,
        "image/png".toList⟩,
       ⟨"https://h.co/subtask-attachments/u/b.pdf".toList, "b.pdf".toList, 4,
        "application/pdf".toList⟩] =
      ("![a.png](https://h.co/subtask-attachments/u/a.png)\n" ++
       "![b.pdf](https://h.co/subtask-attachments/u/b.pdf)").toList ∧
    extractFileUrls
      ("![a.png](https://h.co/subtask-attachments/u/a.png)\n" ++
       "![b.pdf](https://h.co/subtask-attachments/u/b.pdf)").toList =
      ["https://h.co/subtask-attachments/u/a.png".toList,
       "https://h.co/subtask-attachments/u/b.pdf".toList] := by
  constructor
  · decide
  · decide

/-- C4: `extractFileUrls` is the comment-sentinel scan followed by the
bare-url scan, concatenated and then deduplicated preserving first
occurrence: the result is duplicate-free, is a subsequence of the
concatenated scans (no reordering), and keeps exactly their elements; the
deduplication keeps the first occurrence and filters later ones.  Content
carrying the same url once as a sentinel and once as a legacy image yields
that url exactly once. -/
theorem C4_extract_order_dedup :
    (∀ s : List Char,
      extractFileUrls s = dedupFirst (extractComments s ++ extractMd s) ∧
      (extractFileUrls s).Nodup ∧
      (extractFileUrls s).Sublist (extractComments s ++ extractMd s) ∧
      (∀ u, u ∈ extractFileUrls s ↔ u ∈ extractComments s ++ extractMd s)) ∧
    (∀ (x : List Char) (xs : List (List Char)),
      dedupFirst (x :: xs) = x :: dedupFirst (xs.filter (· ≠ x))) ∧
    extractFileUrls
      ("<!-- attachment: https://h.co/subtask-attachments/f.png -->\n" ++
       "![f.png](https://h.co/subtask-attachments/f.png)").toList =
      ["https://h.co/subtask-attachments/f.png".toList] := by
  refine ⟨fun s => ⟨rfl, dedupFirst_nodup _, dedupFirst_sublist _,
    fun u => dedupFirst_mem _ u⟩, dedupFirst_cons, by decide⟩

/-- C6: upload of a file named `image.png`, `blob`, the empty name, or any
name prefixed `image` produces the generated display name
`screenshot-<timestamp>.<ext>`, with the timestamp the ISO instant with `:`
and `.` replaced by `-` (14 digits for a standard ISO instant) and the
extension the MIME subtype, defaulting to `png`; a file named `report.pdf`
keeps its name verbatim. -/
theorem C6_naming :
    (∀ mime iso : List Char,
      uploadFileName "image.png".toList mime iso = screenshotName iso mime) ∧
    (∀ mime iso : List Char,
      uploadFileName "blob".toList mime iso = screenshotName iso mime) ∧
    (∀ mime iso : List Char, uploadFileName [] mime iso = screenshotName iso mime) ∧
    (∀ n mime iso : List Char, "image".toList.isPrefixOf n = true →
      uploadFileName n mime iso = screenshotName iso mime) ∧
    (∀ mime iso : List Char,
      uploadFileName "report.pdf".toList mime iso = "report.pdf".toList) ∧
    uploadFileName "blob".toList "image/png".toList "2025-01-02T03:04:05.678Z".toList =
      "screenshot-2025-01-02T03-04-05.png".toList ∧
    extFromMime [] = "png".toList ∧
    extFromMime "application/pdf".toList = "pdf".toList ∧
    ((tsOf "2025-01-02T03:04:05.678Z".toList).filter Char.isDigit).length = 14 := by
  refine ⟨?_, ?_, ?_, ?_, ?_, by decide, by decide, by decide, by decide⟩
  · intro mime iso
    unfold uploadFileName
    rw [if_pos (by decide)]
  · intro mime iso
    unfold uploadFileName
    rw [if_pos (by decide)]
  · intro mime iso
    unfold uploadFileName
    rw [if_pos (by decide)]
  · intro n mime iso h
    unfold uploadFileName
    rw [if_pos (by simp [suspectName]; exact Or.inr (isPrefixOf_eq_true.mp h))]
  · intro mime iso
    unfold uploadFileName
    rw [if_neg (by decide)]

/-- C6 witness: a name prefixed `image` (but distinct from the fixed
placeholders) is replaced by the generated screenshot name. -/
theorem C6_witness :
    uploadFileName "image-7.png".toList "image/jpeg".toList
      "2025-03-04T05:06:07.890Z".toList =
    screenshotName "2025-03-04T05:06:07.890Z".toList "image/jpeg".toList :=
  C6_naming.2.2.2.1 "image-7.png".toList "image/jpeg".toList
    "2025-03-04T05:06:07.890Z".toList (by decide)

/-- C7: for a caller identity containing no `/`, both the upload storage key
`<userId>/<fileId>.<ext>` and the delete key `<userId>/<lastUrlSegment>`
have first path segment equal to the caller identity — so deletes can only
address the caller namespace whatever the url, and two distinct users can
never produce the same upload key. -/
theorem C7_key_isolation :
    (∀ userId fileId orig mime iso : List Char, (∀ a ∈ userId, a ≠ '/') →
      firstSeg (uploadStoragePath userId fileId orig mime iso) = userId) ∧
    (∀ userId url : List Char, (∀ a ∈ userId, a ≠ '/') →
      firstSeg (deleteFilePath userId url) = userId) ∧
    (∀ u1 u2 f1 f2 o1 o2 m1 m2 i1 i2 : List Char,
      (∀ a ∈ u1, a ≠ '/') → (∀ a ∈ u2, a ≠ '/') → u1 ≠ u2 →
      uploadStoragePath u1 f1 o1 m1 i1 ≠ uploadStoragePath u2 f2 o2 m2 i2) := by
  refine ⟨?_, ?_, ?_⟩
  · intro userId fileId orig mime iso h
    unfold uploadStoragePath
    exact firstSeg_append h
  · intro userId url h
    unfold deleteFilePath
    exact firstSeg_append h
  · intro u1 u2 f1 f2 o1 o2 m1 m2 i1 i2 h1 h2 hne heq
    apply hne
    have e1 : firstSeg (uploadStoragePath u1 f1 o1 m1 i1) = u1 := by
      unfold uploadStoragePath
      exact firstSeg_append h1
    have e2 : firstSeg (uploadStoragePath u2 f2 o2 m2 i2) = u2 := by
      unfold uploadStoragePath
      exact firstSeg_append h2
    rw [← e1, ← e2, heq]

/-- C7 witness: concrete keys for two users with colliding original
filenames land in distinct per-user namespaces. -/
theorem C7_witness :
    firstSeg (uploadStoragePath "user1".toList "fid9".toList "report.pdf".toList [] []) =
      "user1".toList ∧
    firstSeg (deleteFilePath "user1".toList
      "https://h.co/subtask-attachments/other/f.png".toList) = "user1".toList ∧
    uploadStoragePath "user1".toList "fidA".toList "report.pdf".toList [] [] ≠
      uploadStoragePath "user2".toList "fidA".toList "report.pdf".toList [] [] := by
  refine ⟨?_, ?_, ?_⟩
  · exact C7_key_isolation.1 _ _ _ _ _ (by decide)
  · exact C7_key_isolation.2.1 _ _ (by decide)
  · exact C7_key_isolation.2.2 _ _ _ _ _ _ _ _ _ _ (by decide) (by decide) (by decide)

/-- C8 counterexample: `myauth` is an auth-related key (it contains `auth`),
its value is unparseable, yet the localStorage pass keeps it — corrupt
entries are only removed there when the key contains `supabase.auth.token`. -/
theorem C8_counterexample :
    authKeyLocal "myauth".toList = true ∧
    cleanupLocal 100 [("myauth".toList, .bad)] = [("myauth".toList, .bad)] := by decide

/-- C8 (amended): each cleanup pass visits every entry — one corrupt entry
never blocks the rest, and no exception escapes (the passes are total
filters).  In the sessionStorage scope every auth-related unparseable entry
is removed unconditionally; in the localStorage scope an unparseable entry
is removed exactly when its key also contains `supabase.auth.token`. -/
theorem C8_cleanup :
    (∀ (now : Int) (entries : List (List Char × CacheVal)),
      cleanupLocal now entries = entries.filter (fun e => !localRemove now e.1 e.2)) ∧
    (∀ (now : Int) (entries : List (List Char × CacheVal)),
      cleanupSession now entries = entries.filter (fun e => !sessionRemove now e.1 e.2)) ∧
    (∀ (now : Int) (k : List Char), sessionRemove now k .bad = authKeySession k) ∧
    (∀ (now : Int) (k : List Char),
      localRemove now k .bad =
        (authKeyLocal k && containsSub "supabase.auth.token".toList k)) ∧
    cleanupSession 0 [("xauthx".toList, .bad), ("supabase1".toList, .bad)] = [] := by
  refine ⟨?_, ?_, ?_, ?_, by decide⟩
  · intro now entries
    induction entries with
    | nil => rfl
    | cons e rest ih =>
      obtain ⟨k, v⟩ := e
      cases h : localRemove now k v <;> simp [cleanupLocal, List.filter_cons, h, ih]
  · intro now entries
    induction entries with
    | nil => rfl
    | cons e rest ih =>
      obtain ⟨k, v⟩ := e
      cases h : sessionRemove now k v <;> simp [cleanupSession, List.filter_cons, h, ih]
  · intro now k
    simp [sessionRemove]
  · intro now k
    simp [localRemove]

/-- C9 counterexample: on `<!-- ![a --> ](b)` the comment pass alone would
delete the leading sentinel `<!-- ![a -->` (first conjunct), but the export
cleaning runs the image replacement first, which consumes `![a --> ](b)`
across the sentinel close, so the cleaned output still contains the sentinel
opener `<!--` — the claim that every HTML-comment sentinel is deleted fails.
The last two conjuncts: the subtask-description sites additionally `.trim()`
the result, so there text other than the spans is altered as well. -/
theorem C9_counterexample :
    stripComments "<!-- ![a --> ](b)".toList = " ](b)".toList ∧
    cleanContent "<!-- ![a --> ](b)".toList = "<!-- [image]".toList ∧
    containsSub comOpen (cleanContent "<!-- ![a --> ](b)".toList) = true ∧
    cleanSubtaskContent " x ".toList = "x".toList ∧
    " x ".toList ≠ "x".toList := by
  refine ⟨by decide, by decide, by decide, by decide, by decide⟩

/-- C9 (amended): the export cleaning replaces image spans with `[image]`
first and then deletes the comment sentinels that remain; the subtask sites
trim the result.  For content made of any sequence of non-overlapping
well-formed image spans `![a](b)`, comment spans `<!--s-->` and span-free
text runs (no two adjacent, so no span straddles a seam), each image span
becomes `[image]`, each comment span is deleted, all other text is unchanged,
and the subtask cleaning is exactly that result trimmed; content containing
neither `![` nor `<!--` is returned verbatim (trimmed at the subtask sites). -/
theorem C9_clean :
    (∀ P : List Piece, (∀ p ∈ P, WfPiece p) → noAdjPlain P = true →
      cleanContent (renderPieces P) = cleanedPieces P ∧
      cleanSubtaskContent (renderPieces P) = jsTrim (cleanedPieces P)) ∧
    (∀ v : List Char, containsSub imgOpen v = false → containsSub comOpen v = false →
      cleanContent v = v ∧ cleanSubtaskContent v = jsTrim v) ∧
    cleanContent "pre ![p](u) mid <!-- note --> post".toList =
      "pre [image] mid  post".toList ∧
    cleanSubtaskContent "  ![p](u) tail  ".toList = "[image] tail".toList := by
  refine ⟨?_, ?_, by decide, by decide⟩
  · intro P hwf hadj
    have h := cleanContent_pieces hwf hadj
    refine ⟨h, ?_⟩
    unfold cleanSubtaskContent
    rw [h]
  · intro v h1 h2
    have h := cleanContent_id h1 h2
    refine ⟨h, ?_⟩
    unfold cleanSubtaskContent
    rw [h]

/-- A concrete piece list with two image spans, one comment span and three
text runs, for the witness below. -/
def wPieces : List Piece :=
  [Piece.plain "x ".toList, Piece.img "p".toList "u".toList,
   Piece.plain " y ".toList, Piece.com " note ".toList,
   Piece.plain " z ".toList, Piece.img "q q".toList "vv".toList]

/-- C9 witness: the shaped part at a concrete multi-span piece list and the
verbatim part at a concrete string. -/
theorem C9_witness :
    (cleanContent (renderPieces wPieces) = cleanedPieces wPieces ∧
      cleanSubtaskContent (renderPieces wPieces) = jsTrim (cleanedPieces wPieces)) ∧
    cleanContent "plain text".toList = "plain text".toList ∧
    renderPieces wPieces = "x ![p](u) y <!-- note --> z ![q q](vv)".toList ∧
    cleanedPieces wPieces = "x [image] y  z [image]".toList := by
  refine ⟨C9_clean.1 wPieces (by decide) (by decide),
    (C9_clean.2.1 "plain text".toList (by decide) (by decide)).1, by decide, by decide⟩

/-- C10 counterexample: a bare https url consisting of the segment marker
with nothing after it does contain `/subtask-attachments/`, yet extraction
returns nothing — the regex demands at least one url character on each side
of the marker, so not every segment-containing bare url is returned. -/
theorem C10_counterexample :
    containsSub segL "https://a/subtask-attachments/".toList = true ∧
    extractFileUrls "https://a/subtask-attachments/".toList = [] := by
  refine ⟨by decide, by decide⟩

/-- C10 (amended): extraction accepts more than the two documented embedded
forms: a bare well-formed attachment url (url-class characters with at least
one on each side of `/subtask-attachments/`) is returned even outside any
markdown image syntax, and a comment sentinel is extracted whatever https
url it carries, including urls without the `/subtask-attachments/` segment. -/
theorem C10_extract_superset :
    (∀ pre u post : List Char,
      containsSub httpsL pre = false →
      (∀ ch ∈ u, urlChar ch = true) →
      hasProperSeg u = true →
      post.takeWhile urlChar = [] →
      (httpsL ++ u) ∈ extractFileUrls (pre ++ (httpsL ++ (u ++ post)))) ∧
    (∀ v : List Char, v ≠ [] → (∀ ch ∈ v, nsChar ch = true) →
      (httpsL ++ v) ∈ extractFileUrls (sentinelPre ++ (httpsL ++ (v ++ sentinelClose)))) ∧
    extractFileUrls "<!-- attachment: https://example.com/no-seg -->".toList =
      ["https://example.com/no-seg".toList] := by
  refine ⟨?_, ?_, by decide⟩
  · intro pre u post hpre hu hseg hpost
    show _ ∈ dedupFirst _
    rw [dedupFirst_mem]
    apply List.mem_append_right
    have hskip : extractMd (pre ++ (httpsL ++ (u ++ post))) =
        extractMd (httpsL ++ (u ++ post)) := by
      apply extractMd_append
      apply noPreMid_head _ (noPre_of_containsSub hpre)
      intro ch hch
      have hch2 : ('h' : Char) = ch := Option.some.inj hch
      rw [← hch2]
      decide
    rw [hskip, extractMd_step (tryUrl_build hu hseg hpost)]
    exact List.mem_cons_self _ _
  · intro v hv hns
    show _ ∈ dedupFirst _
    rw [dedupFirst_mem]
    apply List.mem_append_left
    have hsh : sentinelPre ++ (httpsL ++ (v ++ sentinelClose)) =
        sentinelPre ++ (httpsL ++ (v ++ (sentinelClose ++ []))) := by
      rw [List.append_nil]
    rw [hsh, extractComments_step (tryComment_build hv hns)]
    exact List.mem_cons_self _ _

/-- C10 witness: a bare attachment url in plain text and a sentinel carrying
a non-attachment url are both extracted. -/
theorem C10_witness :
    ("https://".toList ++ "h.co/subtask-attachments/p.png".toList) ∈
      extractFileUrls ("see ".toList ++ ("https://".toList ++
        ("h.co/subtask-attachments/p.png".toList ++ " here".toList))) ∧
    ("https://".toList ++ "plain.example/x".toList) ∈
      extractFileUrls ("<!-- attachment: ".toList ++ ("https://".toList ++
        ("plain.example/x".toList ++ " -->".toList))) := by
  constructor
  · exact C10_extract_superset.1 "see ".toList "h.co/subtask-attachments/p.png".toList
      " here".toList (by decide) (by decide) (by decide) (by decide)
  · exact C10_extract_superset.2.1 "plain.example/x".toList (by decide) (by decide)

end Subflow
